import Mathlib

/-!
# Verification of the Schiavinato Sharing core (schiavinato-sharing-js)

Shallow embedding of the arithmetic and pipeline code of the
GRIFORTIS/schiavinato-sharing-js library, together with proofs of the
specification's claims about it.

Conventions of the embedding:
* JavaScript `number` values flowing through the field arithmetic are embedded
  as `Int` (all values reaching the arithmetic are integers; the
  `Number.isInteger` guards of the source are vacuous on this representation).
* JavaScript functions that `throw` are embedded as `Option`/`Except`-returning
  functions (`none`/`.error` models a thrown error).
* `%` in JavaScript is truncated remainder, embedded as `Int.tmod`.
* Mnemonics are represented by their word sequences; a word is represented by
  its wordlist index/ID (the word↔index maps of the wordlist module are
  bijective, and joining with single spaces and re-splitting on whitespace is
  the identity on sequences of wordlist words).
-/

namespace Schiavinato

/-- `FIELD_PRIME` from `src/core/field.ts`. -/
def FIELD_PRIME : Int := 2053

/-- `mod` from `src/core/field.ts`: truncated remainder (JavaScript `%`)
followed by a wrap-around for negative results. -/
def fmod (value : Int) : Int :=
  let result := value.tmod FIELD_PRIME
  if result < 0 then result + FIELD_PRIME else result

/-- `modAdd` from `src/core/field.ts`. -/
def modAdd (a b : Int) : Int := fmod (a + b)

/-- `modSub` from `src/core/field.ts`. -/
def modSub (a b : Int) : Int := fmod (a - b)

/-- `modMul` from `src/core/field.ts`. -/
def modMul (a b : Int) : Int := fmod (a * b)

/-- The extended-Euclid loop of `modInv` (`src/core/field.ts`):
`while (newR !== 0) { q = floor(r/newR); (t,newT) = (newT, t-q*newT);
(r,newR) = (newR, r-q*newR) }`, returning the final `(t, r)`.
`r`/`newR` start at `2053`/`mod value` and stay non-negative, so they are
carried as `Nat` (with `floor (r/newR) = r / newR` on naturals). `newR`
strictly decreases on every iteration, so the loop runs at most `newR + 1`
times; the structural `fuel` counter is only there to make the recursion
structural, and is never exhausted when `newR < fuel`. -/
def egcdLoop : Nat → Int → Int → Nat → Nat → Int × Nat
  | 0, t, _newT, r, _newR => (t, r)
  | fuel + 1, t, newT, r, newR =>
    if newR = 0 then (t, r)
    else egcdLoop fuel newT (t - ((r / newR : Nat) : Int) * newT) newR (r % newR)

/-- `modInv` from `src/core/field.ts`. `none` models a thrown error (zero
input, or a final remainder above 1). The initial `newR = mod value < 2053`,
so fuel `2053` is never exhausted. -/
def modInv (value : Int) : Option Int :=
  let val := fmod value
  if val = 0 then none
  else
    let res := egcdLoop 2053 0 1 2053 val.toNat
    if (res.2 : Int) > 1 then none
    else if res.1 < 0 then some (res.1 + FIELD_PRIME) else some res.1

/-! ## Basic properties of the field embedding -/

theorem tmod_prime_lb (a : Int) : -2053 < a.tmod 2053 := by
  cases a with
  | ofNat m =>
    have : (0 : Int) ≤ Int.tmod (Int.ofNat m) 2053 :=
      Int.tmod_nonneg _ (Int.ofNat_nonneg m)
    omega
  | negSucc m =>
    show -2053 < -(((m : Int) + 1) % 2053)
    have h1 : ((m : Int) + 1) % 2053 < 2053 := Int.emod_lt_of_pos _ (by decide)
    omega

theorem tmod_prime_sub_dvd (a : Int) : (2053 : Int) ∣ a - a.tmod 2053 := by
  rw [Int.tmod_def]
  exact ⟨a.tdiv 2053, by ring⟩

theorem fmod_eq_emod (v : Int) : fmod v = v % 2053 := by
  have h1 := tmod_prime_lb v
  have h2 : v.tmod 2053 < 2053 := Int.tmod_lt_of_pos v (by decide)
  obtain ⟨k, hk⟩ := tmod_prime_sub_dvd v
  show (if v.tmod 2053 < 0 then v.tmod 2053 + 2053 else v.tmod 2053) = v % 2053
  split <;> omega

theorem fmod_nonneg (v : Int) : 0 ≤ fmod v := by
  rw [fmod_eq_emod]; exact Int.emod_nonneg v (by decide)

theorem fmod_lt (v : Int) : fmod v < 2053 := by
  rw [fmod_eq_emod]; exact Int.emod_lt_of_pos v (by decide)

instance fact_prime_2053 : Fact (Nat.Prime 2053) := ⟨by norm_num⟩

/-- The interpretation of an embedded field value in `ZMod 2053`. -/
def toZ (v : Int) : ZMod 2053 := (v : ZMod 2053)

theorem toZ_fmod (v : Int) : toZ (fmod v) = toZ v := by
  unfold toZ
  rw [fmod_eq_emod]
  exact_mod_cast ZMod.intCast_mod v 2053

theorem toZ_modAdd (a b : Int) : toZ (modAdd a b) = toZ a + toZ b := by
  unfold modAdd
  rw [toZ_fmod]; unfold toZ; push_cast; ring

theorem toZ_modSub (a b : Int) : toZ (modSub a b) = toZ a - toZ b := by
  unfold modSub
  rw [toZ_fmod]; unfold toZ; push_cast; ring

theorem toZ_modMul (a b : Int) : toZ (modMul a b) = toZ a * toZ b := by
  unfold modMul
  rw [toZ_fmod]; unfold toZ; push_cast; ring

/-- Two canonical field representatives with the same residue are equal. -/
theorem eq_of_toZ_eq {a b : Int} (h1 : 0 ≤ a) (h2 : a < 2053) (h3 : 0 ≤ b)
    (h4 : b < 2053) (h : toZ a = toZ b) : a = b := by
  unfold toZ at h
  rw [ZMod.intCast_eq_intCast_iff] at h
  have h' : a % (2053 : Int) = b % (2053 : Int) := by exact_mod_cast h
  omega

theorem fmod_eq_of_toZ_eq {a b : Int} (h : toZ a = toZ b) : fmod a = fmod b := by
  apply eq_of_toZ_eq (fmod_nonneg a) (fmod_lt a) (fmod_nonneg b) (fmod_lt b)
  rw [toZ_fmod, toZ_fmod]; exact h

theorem fmod_eq_self {a : Int} (h1 : 0 ≤ a) (h2 : a < 2053) : fmod a = a := by
  rw [fmod_eq_emod]; exact Int.emod_eq_of_lt h1 h2

theorem toZ_eq_zero_iff_fmod (v : Int) : toZ v = 0 ↔ fmod v = 0 := by
  constructor
  · intro h
    apply eq_of_toZ_eq (fmod_nonneg v) (fmod_lt v) le_rfl (by decide)
    rw [toZ_fmod, h]; rfl
  · intro h
    rw [← toZ_fmod, h]; rfl

/-! ## Correctness of the extended Euclidean loop and `modInv` (claim C8) -/

theorem egcd_spec (a : Int) (newR : Nat) : ∀ fuel r : Nat, ∀ t newT : Int,
    newR < fuel →
    (toZ t * toZ a = (r : ZMod 2053)) → (toZ newT * toZ a = (newR : ZMod 2053)) →
    (egcdLoop fuel t newT r newR).2 = Nat.gcd newR r ∧
    (toZ (egcdLoop fuel t newT r newR).1 * toZ a
      = ((egcdLoop fuel t newT r newR).2 : ZMod 2053)) := by
  induction newR using Nat.strong_induction_on with
  | _ newR ih =>
    intro fuel r t newT hfuel ht hnt
    cases fuel with
    | zero => omega
    | succ f =>
      rw [egcdLoop]
      by_cases h : newR = 0
      · subst h
        refine ⟨by simp [Nat.gcd_zero_left], by simpa using ht⟩
      · simp only [h, if_false]
        have hlt : r % newR < newR := Nat.mod_lt _ (Nat.pos_of_ne_zero h)
        have hmod : ((newR : ZMod 2053)) * ((r / newR : Nat) : ZMod 2053)
            + ((r % newR : Nat) : ZMod 2053) = (r : ZMod 2053) := by
          exact_mod_cast congrArg (Nat.cast : Nat → ZMod 2053) (Nat.div_add_mod r newR)
        have hstep : toZ (t - ((r / newR : Nat) : Int) * newT) * toZ a
            = ((r % newR : Nat) : ZMod 2053) := by
          unfold toZ at *
          rw [Int.cast_sub, Int.cast_mul, Int.cast_natCast, sub_mul, mul_assoc, ht, hnt, ← hmod]
          ring
        obtain ⟨h1, h2⟩ := ih (r % newR) hlt f newR newT _ (by omega) hnt hstep
        exact ⟨h1.trans (Nat.gcd_rec newR r).symm, h2⟩

theorem modInv_ne_none (v : Int) (hv : fmod v ≠ 0) :
    ∃ t, modInv v = some t ∧ toZ t * toZ v = 1 := by
  have hge := fmod_nonneg v
  have hlt := fmod_lt v
  have hpos : 0 < (fmod v).toNat := by omega
  have hlt' : (fmod v).toNat < 2053 := by omega
  have hgcd : Nat.gcd (fmod v).toNat 2053 = 1 := by
    have hnd : ¬ (2053 ∣ (fmod v).toNat) := by
      intro hd
      exact absurd (Nat.le_of_dvd hpos hd) (by omega)
    have := (Nat.Prime.coprime_iff_not_dvd (by norm_num)).mpr hnd
    exact Nat.Coprime.gcd_eq_one (Nat.Coprime.symm this)
  have hcast : ((fmod v).toNat : ZMod 2053) = toZ v := by
    have : (((fmod v).toNat : Int) : ZMod 2053) = toZ (fmod v) := by
      unfold toZ; congr 1; omega
    rw [toZ_fmod] at this
    exact_mod_cast this
  obtain ⟨h1, h2⟩ := egcd_spec v ((fmod v).toNat) 2053 2053 0 1 hlt'
    (by simp [toZ]; decide) (by simpa [toZ] using hcast.symm)
  rw [hgcd] at h1
  unfold modInv
  simp only [hv, if_false]
  rw [h1] at h2 ⊢
  simp only [Nat.cast_one] at h2
  split
  · omega
  · split
    · refine ⟨_, rfl, ?_⟩
      rw [show toZ (((egcdLoop 2053 0 1 2053 (fmod v).toNat).1) + FIELD_PRIME)
          = toZ ((egcdLoop 2053 0 1 2053 (fmod v).toNat).1) by
        unfold toZ FIELD_PRIME; push_cast
        simp [show (2053 : ZMod 2053) = 0 by decide]]
      exact h2
    · exact ⟨_, rfl, h2⟩

theorem modInv_eq_none (v : Int) (hv : fmod v = 0) : modInv v = none := by
  unfold modInv
  simp [hv]

/-- C8. `modInv` throws exactly when `mod v = 0`, and for every `v` with
`mod v ≠ 0`, `modMul (mod v) (modInv v) = 1`. -/
theorem C8_modInv_field_inverse (v : Int) :
    (modInv v = none ↔ fmod v = 0) ∧
    (∀ t, modInv v = some t → modMul (fmod v) t = 1) := by
  constructor
  · constructor
    · intro h
      by_contra hv
      obtain ⟨t, ht, _⟩ := modInv_ne_none v hv
      rw [ht] at h
      exact Option.noConfusion h
    · exact modInv_eq_none v
  · intro t ht
    have hv : fmod v ≠ 0 := by
      intro hv
      rw [modInv_eq_none v hv] at ht
      exact Option.noConfusion ht
    obtain ⟨t', ht', hinv⟩ := modInv_ne_none v hv
    rw [ht] at ht'
    injection ht' with h
    subst h
    apply eq_of_toZ_eq (fmod_nonneg _) (fmod_lt _) (by decide) (by decide)
    show toZ (fmod (fmod v * t)) = toZ 1
    rw [toZ_fmod, show toZ (fmod v * t) = toZ (fmod v) * toZ t by
      unfold toZ; push_cast; ring]
    rw [toZ_fmod, mul_comm, show toZ 1 = 1 by decide]
    exact hinv

/-- Witness for C8 at `v = 2`, `t = 1027`: `modInv 2 = some 1027` and
`modMul (mod 2) 1027 = 1`. -/
theorem C8_witness : modInv 2 = some 1027 ∧ modMul (fmod 2) 1027 = 1 :=
  ⟨by decide, (C8_modInv_field_inverse 2).2 1027 (by decide)⟩

/-! ## Polynomials (`src/core/polynomial.ts`, `src/schiavinato/checksums.ts`) -/

/-- `evaluatePolynomial` from `src/core/polynomial.ts`: Horner's method from
the highest-degree coefficient down, with `x` reduced via `mod` on entry. -/
def evaluatePolynomial (coefficients : List Int) (x : Int) : Int :=
  let fieldX := fmod x
  coefficients.foldr (fun c acc => modAdd (modMul acc fieldX) c) 0

/-- The naive polynomial evaluation `Σ aᵢ·xⁱ` in the spec's words: the
reference point of refinement claim C9. -/
def naiveEval (coefficients : List Int) (x : Int) : Int :=
  (coefficients.enum.map (fun p => p.2 * x ^ p.1)).sum

/-- `randomPolynomial` from `src/core/polynomial.ts`, with the random source
modelled as a stream `rand : Nat → Int` read at positions
`start, start+1, …` (`getRandomFieldElement` is one stream read). -/
def randomPolynomial (rand : Nat → Int) (start : Nat) (secret : Int)
    (degree : Nat) : List Int :=
  fmod secret :: (List.range degree).map (fun i => rand (start + i))

/-- `sumPolynomials` from `src/schiavinato/checksums.ts`. `none` models the
thrown errors (empty input, or a length mismatch against the first
polynomial). -/
def sumPolynomials (polynomials : List (List Int)) : Option (List Int) :=
  match polynomials with
  | [] => none
  | p :: ps =>
      if ps.all (fun q => q.length == p.length) then
        some ((p :: ps).foldl (fun acc q => List.zipWith modAdd acc q)
          (List.replicate p.length 0))
      else none

/-- The coefficient list `p` read as a polynomial over `GF(2053)`
(proof-side interpretation only; never evaluated). -/
noncomputable def toPoly (p : List Int) : Polynomial (ZMod 2053) :=
  match p with
  | [] => 0
  | c :: cs => Polynomial.C (toZ c) + Polynomial.X * toPoly cs

theorem toPoly_nil : toPoly [] = 0 := rfl

theorem toPoly_cons (c : Int) (cs : List Int) :
    toPoly (c :: cs) = Polynomial.C (toZ c) + Polynomial.X * toPoly cs := rfl

theorem evaluatePolynomial_nil (x : Int) : evaluatePolynomial [] x = 0 := rfl

theorem evaluatePolynomial_cons (c : Int) (cs : List Int) (x : Int) :
    evaluatePolynomial (c :: cs) x
      = modAdd (modMul (evaluatePolynomial cs x) (fmod x)) c := rfl

theorem evaluatePolynomial_nonneg (p : List Int) (x : Int) :
    0 ≤ evaluatePolynomial p x := by
  cases p with
  | nil => simp [evaluatePolynomial_nil]
  | cons c cs => rw [evaluatePolynomial_cons]; exact fmod_nonneg _

theorem evaluatePolynomial_lt (p : List Int) (x : Int) :
    evaluatePolynomial p x < 2053 := by
  cases p with
  | nil => simp [evaluatePolynomial_nil]
  | cons c cs => rw [evaluatePolynomial_cons]; exact fmod_lt _

theorem toZ_evaluatePolynomial (p : List Int) (x : Int) :
    toZ (evaluatePolynomial p x) = (toPoly p).eval (toZ x) := by
  induction p with
  | nil =>
    rw [evaluatePolynomial_nil, toPoly_nil]
    simp [toZ]
  | cons c cs ih =>
    rw [evaluatePolynomial_cons, toZ_modAdd, toZ_modMul, toZ_fmod, ih, toPoly_cons]
    simp
    ring

theorem naiveEval_nil (x : Int) : naiveEval [] x = 0 := rfl

theorem sum_enumFrom_succ (cs : List Int) (x : Int) : ∀ n : Nat,
    ((List.enumFrom (n + 1) cs).map (fun p => p.2 * x ^ p.1)).sum
      = x * ((List.enumFrom n cs).map (fun p => p.2 * x ^ p.1)).sum := by
  induction cs with
  | nil => intro n; simp
  | cons c cs ih =>
    intro n
    simp only [List.enumFrom_cons, List.map_cons, List.sum_cons]
    rw [ih (n + 1)]
    rw [pow_succ]
    ring

theorem naiveEval_cons (c : Int) (cs : List Int) (x : Int) :
    naiveEval (c :: cs) x = c + x * naiveEval cs x := by
  unfold naiveEval
  rw [List.enum_cons]
  simp only [List.map_cons, List.sum_cons, pow_zero, mul_one]
  rw [show List.enum cs = List.enumFrom 0 cs from rfl, sum_enumFrom_succ cs x 0]

theorem toZ_naiveEval (p : List Int) (x : Int) :
    toZ (naiveEval p x) = (toPoly p).eval (toZ x) := by
  induction p with
  | nil =>
    rw [naiveEval_nil, toPoly_nil]
    simp [toZ]
  | cons c cs ih =>
    rw [naiveEval_cons, show toZ (c + x * naiveEval cs x)
        = toZ c + toZ x * toZ (naiveEval cs x) by unfold toZ; push_cast; ring, ih,
      toPoly_cons]
    simp

theorem toPoly_replicate_zero (n : Nat) : toPoly (List.replicate n 0) = 0 := by
  induction n with
  | zero => rfl
  | succ n ih =>
    rw [List.replicate_succ, toPoly_cons, ih]
    simp [toZ]

theorem toPoly_zipWith_modAdd (p : List Int) : ∀ q : List Int,
    p.length = q.length →
    toPoly (List.zipWith modAdd p q) = toPoly p + toPoly q := by
  induction p with
  | nil =>
    intro q hq
    rw [List.length_nil] at hq
    rw [(List.length_eq_zero).mp hq.symm]
    simp [toPoly_nil]
  | cons c cs ih =>
    intro q hq
    cases q with
    | nil => simp at hq
    | cons d ds =>
      simp only [List.length_cons, Nat.succ_inj] at hq
      rw [List.zipWith_cons_cons, toPoly_cons, toPoly_cons, toPoly_cons,
        ih ds hq, toZ_modAdd]
      rw [map_add]
      ring

theorem zipWith_modAdd_length (p q : List Int) (h : p.length = q.length) :
    (List.zipWith modAdd p q).length = p.length := by
  rw [List.length_zipWith, h, Nat.min_self]

theorem toPoly_foldl_zipWith (ps : List (List Int)) (n : Nat)
    (hlen : ∀ q ∈ ps, q.length = n) : ∀ acc : List Int, acc.length = n →
    toPoly (ps.foldl (fun acc q => List.zipWith modAdd acc q) acc)
      = toPoly acc + (ps.map toPoly).sum := by
  induction ps with
  | nil => intro acc _; simp
  | cons q qs ih =>
    intro acc hacc
    have hq : q.length = n := hlen q (List.mem_cons_self q qs)
    have hlen' : ∀ r ∈ qs, r.length = n := fun r hr => hlen r (List.mem_cons_of_mem q hr)
    rw [List.foldl_cons,
      ih hlen' _ (by rw [zipWith_modAdd_length acc q (hacc.trans hq.symm), hacc]),
      toPoly_zipWith_modAdd acc q (hacc.trans hq.symm)]
    simp only [List.map_cons, List.sum_cons]
    ring

theorem toZ_listSum (l : List Int) : toZ l.sum = (l.map toZ).sum := by
  induction l with
  | nil => simp [toZ]
  | cons c cs ih =>
    rw [List.sum_cons, show toZ (c + cs.sum) = toZ c + toZ cs.sum by
      unfold toZ; push_cast; ring, ih, List.map_cons, List.sum_cons]

/-- C7. Path A equals Path B: summing polynomials coefficient-wise and then
evaluating agrees with evaluating each polynomial and summing (mod 2053), and
`sumPolynomials` fails only on an empty list or a length mismatch. -/
theorem C7_sum_evaluate_exchange (ps : List (List Int)) (x : Int) :
    (ps ≠ [] → (∀ p ∈ ps, ∀ q ∈ ps, p.length = q.length) →
      ∃ s, sumPolynomials ps = some s ∧
        evaluatePolynomial s x
          = fmod ((ps.map (fun p => evaluatePolynomial p x)).sum)) ∧
    (sumPolynomials ps = none →
      ps = [] ∨ ∃ p ∈ ps, ∃ q ∈ ps, p.length ≠ q.length) := by
  constructor
  · intro hne hlen
    match ps, hne with
    | p :: ps', _ =>
      have hall : ps'.all (fun q => q.length == p.length) = true := by
        rw [List.all_eq_true]
        intro q hq
        exact beq_iff_eq.mpr (hlen q (List.mem_cons_of_mem p hq) p
          (List.mem_cons_self p ps'))
      refine ⟨_, by rw [sumPolynomials, if_pos hall], ?_⟩
      apply eq_of_toZ_eq (evaluatePolynomial_nonneg _ _) (evaluatePolynomial_lt _ _)
        (fmod_nonneg _) (fmod_lt _)
      rw [toZ_fmod, toZ_evaluatePolynomial, toZ_listSum,
        toPoly_foldl_zipWith (p :: ps') p.length
          (fun q hq => hlen q hq p (List.mem_cons_self p ps'))
          (List.replicate p.length 0) (List.length_replicate _ _),
        toPoly_replicate_zero]
      rw [zero_add, show Polynomial.eval (toZ x) (List.map toPoly (p :: ps')).sum
          = ((List.map toPoly (p :: ps')).map
              (fun q => Polynomial.eval (toZ x) q)).sum from
        map_list_sum (Polynomial.evalRingHom (toZ x)) _, List.map_map, List.map_map]
      congr 1
      apply List.map_congr_left
      intro q _
      simp only [Function.comp]
      rw [toZ_evaluatePolynomial]
  · intro hnone
    match ps with
    | [] => exact Or.inl rfl
    | p :: ps' =>
      right
      rw [sumPolynomials] at hnone
      by_cases hall : ps'.all (fun q => q.length == p.length) = true
      · rw [if_pos hall] at hnone
        exact Option.noConfusion hnone
      · rw [List.all_eq_true] at hall
        push_neg at hall
        obtain ⟨q, hq, hqlen⟩ := hall
        exact ⟨q, List.mem_cons_of_mem p hq, p, List.mem_cons_self p ps',
          fun h => hqlen (beq_iff_eq.mpr h)⟩

/-- Witness for C7 on the source's doc example `P₁ = 1679 + 456x`,
`P₂ = 1470 + 789x` at `x = 3`. -/
theorem C7_witness :
    ∃ s, sumPolynomials [[1679, 456], [1470, 789]] = some s ∧
      evaluatePolynomial s 3
        = fmod (([[1679, 456], [1470, 789]].map
            (fun p => evaluatePolynomial p 3)).sum) :=
  (C7_sum_evaluate_exchange [[1679, 456], [1470, 789]] 3).1 (by decide) (by decide)

/-- C9. Horner evaluation agrees with the naive `Σ aᵢ·xⁱ` reduced mod 2053. -/
theorem C9_horner_equals_naive (coefficients : List Int) (x : Int) :
    evaluatePolynomial coefficients x = fmod (naiveEval coefficients x) := by
  apply eq_of_toZ_eq (evaluatePolynomial_nonneg _ _) (evaluatePolynomial_lt _ _)
    (fmod_nonneg _) (fmod_lt _)
  rw [toZ_fmod, toZ_evaluatePolynomial, toZ_naiveEval]

/-! ## Lagrange interpolation at x = 0 (`src/core/lagrange.ts`) -/

/-- A point `{x, y}` from `src/types.ts`. -/
structure Point where
  x : Int
  y : Int

instance : Inhabited Point := ⟨⟨0, 0⟩⟩

/-- One term `yⱼ·Lⱼ(0)` of `lagrangeInterpolateAtZero`
(`src/core/lagrange.ts`): the inner `m`-loop accumulates the numerator
`∏_{m≠j} mod (FIELD_PRIME - xₘ)` and the denominator `∏_{m≠j} modSub xⱼ xₘ`
(two independent accumulators of one loop, modelled as two folds), then the
term is `yⱼ · numerator · modInv denominator` (`none` models the error
thrown by `modInv` on a zero denominator). -/
def lagrangeTerm (points : List Point) (j : Nat) : Option Int :=
  let xj := fmod (points.getD j default).x
  let numerator := (List.range points.length).foldl
    (fun acc m => if m = j then acc
      else modMul acc (fmod (FIELD_PRIME - fmod (points.getD m default).x))) 1
  let denominator := (List.range points.length).foldl
    (fun acc m => if m = j then acc
      else modMul acc (modSub xj (fmod (points.getD m default).x))) 1
  (modInv denominator).map (fun inv =>
    modMul (fmod (points.getD j default).y) (modMul numerator inv))

/-- `lagrangeInterpolateAtZero` from `src/core/lagrange.ts`: throws (`none`)
on an empty point list, otherwise sums the Lagrange terms with `modAdd`. -/
def lagrangeInterpolateAtZero (points : List Point) : Option Int :=
  if points.length = 0 then none
  else (List.range points.length).foldlM
    (fun sum j => (lagrangeTerm points j).map (fun term => modAdd sum term)) 0

theorem toZ_foldl_ite_modMul (p : Nat → Prop) [DecidablePred p] (g : Nat → Int)
    (l : List Nat) : ∀ init : Int,
    toZ (l.foldl (fun acc m => if p m then acc else modMul acc (g m)) init)
      = toZ init * (l.map (fun m => if p m then 1 else toZ (g m))).prod := by
  induction l with
  | nil => intro init; rw [List.foldl_nil, List.map_nil, List.prod_nil, mul_one]
  | cons m ms ih =>
    intro init
    rw [List.foldl_cons, List.map_cons, List.prod_cons]
    by_cases hm : p m
    · rw [if_pos hm, if_pos hm, ih init, one_mul]
    · rw [if_neg hm, if_neg hm, ih _, toZ_modMul]
      ring

theorem prod_ite_erase (s : Finset Nat) (j : Nat) (hj : j ∈ s)
    (f : Nat → ZMod 2053) :
    ∏ i ∈ s, (if i = j then 1 else f i) = ∏ i ∈ s.erase j, f i := by
  have h1 : ∀ i ∈ s.erase j, (if i = j then 1 else f i) = f i :=
    fun i hi => if_neg (Finset.ne_of_mem_erase hi)
  rw [← Finset.prod_erase_mul s (fun i => if i = j then 1 else f i) hj,
    Finset.prod_congr rfl h1, if_pos rfl, mul_one]

theorem foldlM_option_modAdd (term : Nat → Option Int) (tval : Nat → Int)
    (l : List Nat) (hl : ∀ j ∈ l, term j = some (tval j)) : ∀ init : Int,
    ∃ r, (l.foldlM (fun sum j => (term j).map (fun t => modAdd sum t)) init
        : Option Int) = some r ∧
      toZ r = toZ init + (l.map (fun j => toZ (tval j))).sum ∧
      (0 ≤ init → init < 2053 → 0 ≤ r ∧ r < 2053) := by
  induction l with
  | nil => intro init; exact ⟨init, rfl, by simp, fun h1 h2 => ⟨h1, h2⟩⟩
  | cons j js ih =>
    intro init
    have hj := hl j (List.mem_cons_self j js)
    obtain ⟨r, hr, hrz, hrange⟩ := ih (fun m hm => hl m (List.mem_cons_of_mem j hm))
      (modAdd init (tval j))
    refine ⟨r, ?_, ?_, ?_⟩
    · rw [List.foldlM_cons, hj]
      simpa using hr
    · rw [hrz, toZ_modAdd, List.map_cons, List.sum_cons]
      ring
    · intro _ _
      exact hrange (fmod_nonneg _) (fmod_lt _)

/-- Short-hands for a point list's coordinates in `ZMod 2053`. -/
def ptX (points : List Point) (m : Nat) : ZMod 2053 := toZ (points.getD m default).x

def ptY (points : List Point) (m : Nat) : ZMod 2053 := toZ (points.getD m default).y

theorem lagrangeTerm_spec (points : List Point) (j : Nat) (hj : j < points.length)
    (hden : (∏ m ∈ (Finset.range points.length).erase j,
        (ptX points j - ptX points m)) ≠ 0) :
    ∃ t, lagrangeTerm points j = some t ∧
      toZ t = ptY points j
        * (∏ m ∈ (Finset.range points.length).erase j, (- ptX points m))
        * (∏ m ∈ (Finset.range points.length).erase j,
            (ptX points j - ptX points m))⁻¹ := by
  have hnum : toZ ((List.range points.length).foldl
      (fun acc m => if m = j then acc
        else modMul acc (fmod (FIELD_PRIME - fmod (points.getD m default).x))) 1)
      = ∏ m ∈ (Finset.range points.length).erase j, (- ptX points m) := by
    rw [toZ_foldl_ite_modMul (fun m => m = j)]
    rw [show toZ 1 = 1 by decide, one_mul]
    rw [show ((List.range points.length).map
        (fun m => if m = j then 1
          else toZ (fmod (FIELD_PRIME - fmod (points.getD m default).x)))).prod
        = ∏ m ∈ Finset.range points.length,
            (if m = j then 1 else - ptX points m) by
      apply congrArg List.prod
      apply List.map_congr_left
      intro m _
      by_cases hm : m = j
      · rw [if_pos hm, if_pos hm]
      · rw [if_neg hm, if_neg hm, toZ_fmod]
        show toZ (FIELD_PRIME - fmod (points.getD m default).x) = - ptX points m
        rw [show toZ (FIELD_PRIME - fmod (points.getD m default).x)
            = toZ FIELD_PRIME - toZ (fmod (points.getD m default).x) by
          unfold toZ; push_cast; ring, toZ_fmod,
          show toZ FIELD_PRIME = 0 by decide]
        unfold ptX
        ring]
    exact prod_ite_erase _ j (Finset.mem_range.mpr hj) _
  have hdenv : toZ ((List.range points.length).foldl
      (fun acc m => if m = j then acc
        else modMul acc (modSub (fmod (points.getD j default).x)
          (fmod (points.getD m default).x))) 1)
      = ∏ m ∈ (Finset.range points.length).erase j, (ptX points j - ptX points m) := by
    rw [toZ_foldl_ite_modMul (fun m => m = j)]
    rw [show toZ 1 = 1 by decide, one_mul]
    rw [show ((List.range points.length).map
        (fun m => if m = j then 1
          else toZ (modSub (fmod (points.getD j default).x)
            (fmod (points.getD m default).x)))).prod
        = ∏ m ∈ Finset.range points.length,
            (if m = j then 1 else (ptX points j - ptX points m)) by
      apply congrArg List.prod
      apply List.map_congr_left
      intro m _
      by_cases hm : m = j
      · rw [if_pos hm, if_pos hm]
      · rw [if_neg hm, if_neg hm, toZ_modSub, toZ_fmod, toZ_fmod]
        rfl]
    exact prod_ite_erase _ j (Finset.mem_range.mpr hj) _
  rw [← hdenv] at hden
  have hfm : fmod ((List.range points.length).foldl
      (fun acc m => if m = j then acc
        else modMul acc (modSub (fmod (points.getD j default).x)
          (fmod (points.getD m default).x))) 1) ≠ 0 := by
    intro h
    exact hden ((toZ_eq_zero_iff_fmod _).mpr h)
  obtain ⟨inv, hinv, hinvz⟩ := modInv_ne_none _ hfm
  refine ⟨modMul (fmod (points.getD j default).y)
      (modMul ((List.range points.length).foldl
        (fun acc m => if m = j then acc
          else modMul acc (fmod (FIELD_PRIME - fmod (points.getD m default).x))) 1) inv),
    ?_, ?_⟩
  · show Option.map _ (modInv _) = _
    rw [hinv]
    rfl
  · rw [toZ_modMul, toZ_modMul, toZ_fmod, hnum]
    rw [show toZ inv = (∏ m ∈ (Finset.range points.length).erase j,
        (ptX points j - ptX points m))⁻¹ by
      rw [← hdenv]
      exact eq_inv_of_mul_eq_one_left hinvz]
    unfold ptY
    ring

theorem lagrange_spec (points : List Point) (hne : points.length ≠ 0)
    (hinj : ∀ i < points.length, ∀ j < points.length, i ≠ j →
      ptX points i ≠ ptX points j) :
    ∃ r, lagrangeInterpolateAtZero points = some r ∧ 0 ≤ r ∧ r < 2053 ∧
      toZ r = ∑ j ∈ Finset.range points.length,
        ptY points j
          * (∏ m ∈ (Finset.range points.length).erase j, (- ptX points m))
          * (∏ m ∈ (Finset.range points.length).erase j,
              (ptX points j - ptX points m))⁻¹ := by
  have hden : ∀ j < points.length,
      (∏ m ∈ (Finset.range points.length).erase j,
        (ptX points j - ptX points m)) ≠ 0 := by
    intro j hj
    apply Finset.prod_ne_zero_iff.mpr
    intro m hm
    have hmj := Finset.ne_of_mem_erase hm
    have hmr := Finset.mem_range.mp (Finset.mem_of_mem_erase hm)
    exact sub_ne_zero_of_ne (hinj j hj m hmr (fun hjm => hmj hjm.symm))
  have hterm : ∀ j ∈ List.range points.length,
      lagrangeTerm points j = some ((lagrangeTerm points j).getD 0) := by
    intro j hj
    obtain ⟨t, ht, _⟩ := lagrangeTerm_spec points j (List.mem_range.mp hj)
      (hden j (List.mem_range.mp hj))
    rw [ht]
    rfl
  obtain ⟨r, hr, hrz, hrange⟩ := foldlM_option_modAdd (lagrangeTerm points)
    (fun j => (lagrangeTerm points j).getD 0) (List.range points.length) hterm 0
  refine ⟨r, ?_, (hrange (by decide) (by decide)).1, (hrange (by decide) (by decide)).2, ?_⟩
  · unfold lagrangeInterpolateAtZero
    rw [if_neg hne]
    exact hr
  · rw [hrz, show toZ 0 = 0 by decide, zero_add]
    rw [show ((List.range points.length).map
        (fun j => toZ ((lagrangeTerm points j).getD 0))).sum
        = ∑ j ∈ Finset.range points.length,
            toZ ((lagrangeTerm points j).getD 0) from rfl]
    apply Finset.sum_congr rfl
    intro j hj
    obtain ⟨t, ht, htz⟩ := lagrangeTerm_spec points j (Finset.mem_range.mp hj)
      (hden j (Finset.mem_range.mp hj))
    rw [ht]
    exact htz

theorem eval_interpolate_zero (n : Nat) (v r : Nat → ZMod 2053) :
    (Lagrange.interpolate (Finset.range n) v r).eval 0
      = ∑ j ∈ Finset.range n,
          r j * (∏ m ∈ (Finset.range n).erase j, (- v m))
            * (∏ m ∈ (Finset.range n).erase j, (v j - v m))⁻¹ := by
  rw [Lagrange.interpolate_apply, Polynomial.eval_finset_sum]
  apply Finset.sum_congr rfl
  intro j _
  rw [Polynomial.eval_mul, Polynomial.eval_C, Lagrange.basis, Polynomial.eval_prod]
  rw [show ∀ f : Nat → Polynomial (ZMod 2053), ∀ s : Finset Nat,
      (∀ m ∈ s, f m = Lagrange.basisDivisor (v j) (v m)) →
      ∏ m ∈ s, (f m).eval 0 = ∏ m ∈ s, ((v j - v m)⁻¹ * (- v m)) from
    fun f s hf => Finset.prod_congr rfl (fun m hm => by
      rw [hf m hm, Lagrange.basisDivisor, Polynomial.eval_mul, Polynomial.eval_C,
        Polynomial.eval_sub, Polynomial.eval_X, Polynomial.eval_C]
      ring)]
  · rw [Finset.prod_mul_distrib, ← Finset.prod_inv_distrib]
    ring
  · intro m _
    rfl

/-- Exactness of the embedded interpolation: on any nonempty point list whose
`x`-coordinates are pairwise distinct mod 2053 and whose `y`-values are the
values of a polynomial `f` of degree below the number of points,
`lagrangeInterpolateAtZero` succeeds and returns the canonical representative
of `f(0)`. -/
theorem lagrange_exact (points : List Point) (hne : points.length ≠ 0)
    (hinj : ∀ i < points.length, ∀ j < points.length, i ≠ j →
      ptX points i ≠ ptX points j)
    (f : Polynomial (ZMod 2053)) (hdeg : f.degree < points.length)
    (hy : ∀ i < points.length, ptY points i = f.eval (ptX points i)) :
    ∃ r, lagrangeInterpolateAtZero points = some r ∧ 0 ≤ r ∧ r < 2053 ∧
      toZ r = f.eval 0 := by
  obtain ⟨r, hr, h0, h1, hz⟩ := lagrange_spec points hne hinj
  refine ⟨r, hr, h0, h1, ?_⟩
  have hvs : Set.InjOn (ptX points) (Finset.range points.length) := by
    intro i hi j hj hij
    by_contra hne'
    exact hinj i (Finset.mem_range.mp hi) j (Finset.mem_range.mp hj) hne' hij
  have hinterp : f = Lagrange.interpolate (Finset.range points.length)
      (ptX points) (ptY points) :=
    Lagrange.eq_interpolate_of_eval_eq (ptY points) hvs
      (by rw [Finset.card_range]; exact hdeg)
      (fun i hi => (hy i (Finset.mem_range.mp hi)).symm)
  rw [hz, ← eval_interpolate_zero points.length (ptX points) (ptY points), ← hinterp]

theorem toPoly_degree_lt (p : List Int) :
    (toPoly p).degree < (p.length : WithBot Nat) := by
  induction p with
  | nil =>
    rw [toPoly_nil, Polynomial.degree_zero]
    exact WithBot.bot_lt_coe 0
  | cons c cs ih =>
    rw [toPoly_cons]
    apply lt_of_le_of_lt (Polynomial.degree_add_le _ _)
    apply max_lt
    · apply lt_of_le_of_lt Polynomial.degree_C_le
      exact_mod_cast Nat.succ_pos cs.length
    · apply lt_of_le_of_lt (Polynomial.degree_mul_le _ _)
      rw [Polynomial.degree_X]
      cases hq : (toPoly cs).degree with
      | bot =>
        rw [show (1 : WithBot Nat) + ⊥ = ⊥ from rfl]
        exact WithBot.bot_lt_coe _
      | coe k =>
        have hk : k < cs.length := by
          rw [hq, Nat.cast_withBot] at ih
          exact_mod_cast ih
        rw [List.length_cons, Nat.cast_withBot, ← WithBot.coe_one, ← WithBot.coe_add,
          WithBot.coe_lt_coe]
        omega

theorem eval_toPoly_zero (p : List Int) : (toPoly p).eval 0 = toZ (p.headD 0) := by
  cases p with
  | nil =>
    rw [toPoly_nil]
    simp [toZ]
  | cons c cs =>
    rw [toPoly_cons]
    simp

theorem getD_map_point (xs : List Int) (g : Int → Point) (i : Nat)
    (h : i < xs.length) :
    (xs.map g).getD i default = g (xs.getD i 0) := by
  rw [List.getD_eq_getElem?_getD, List.getElem?_map,
    List.getElem?_eq_getElem h, List.getD_eq_getElem xs 0 h]
  rfl

/-- C6. Lagrange identity: interpolating the evaluations of a degree-`d`
coefficient list at `d+1` distinct non-zero nodes in `[1, 2052]` recovers
the constant coefficient. -/
theorem C6_lagrange_identity (f : List Int) (d : Nat) (xs : List Int)
    (hf : f.length = d + 1) (hxs : xs.length = d + 1)
    (hfc : ∀ c ∈ f, 0 ≤ c ∧ c < 2053)
    (hxr : ∀ x ∈ xs, 1 ≤ x ∧ x ≤ 2052)
    (hnd : xs.Nodup) :
    lagrangeInterpolateAtZero
        (xs.map (fun x => Point.mk x (evaluatePolynomial f x)))
      = some (f.headD 0) := by
  set points := xs.map (fun x => Point.mk x (evaluatePolynomial f x)) with hpts
  have hplen : points.length = xs.length := List.length_map _ _
  have hgd : ∀ i < points.length,
      points.getD i default = Point.mk (xs.getD i 0)
        (evaluatePolynomial f (xs.getD i 0)) := by
    intro i hi
    rw [hpts]
    exact getD_map_point xs _ i (by omega)
  have hxmem : ∀ i < points.length, xs.getD i 0 ∈ xs := by
    intro i hi
    rw [List.getD_eq_getElem xs 0 (by omega)]
    exact List.getElem_mem _
  have hinj : ∀ i < points.length, ∀ j < points.length, i ≠ j →
      ptX points i ≠ ptX points j := by
    intro i hi j hj hij
    unfold ptX
    rw [hgd i hi, hgd j hj]
    intro h
    have hi' : i < xs.length := by omega
    have hj' : j < xs.length := by omega
    have hvals : xs.getD i 0 = xs.getD j 0 := by
      have h1 := (hxr _ (hxmem i hi))
      have h2 := (hxr _ (hxmem j hj))
      exact eq_of_toZ_eq (by omega) (by omega) (by omega) (by omega) h
    rw [List.getD_eq_getElem xs 0 hi', List.getD_eq_getElem xs 0 hj'] at hvals
    exact hij ((hnd.getElem_inj_iff).mp hvals)
  obtain ⟨r, hr, h0, h1, hz⟩ := lagrange_exact points
    (by rw [hplen, hxs]; omega) hinj (toPoly f)
    (by rw [hplen, hxs, ← hf]; exact toPoly_degree_lt f)
    (by
      intro i hi
      unfold ptY ptX
      rw [hgd i hi]
      exact toZ_evaluatePolynomial f (xs.getD i 0))
  rw [hr]
  congr 1
  have hhead : 0 ≤ f.headD 0 ∧ f.headD 0 < 2053 := by
    cases f with
    | nil => simp at hf
    | cons c cs => exact hfc c (List.mem_cons_self c cs)
  apply eq_of_toZ_eq h0 h1 hhead.1 hhead.2
  rw [hz, eval_toPoly_zero]

/-- Witness for C6: interpolating `f(x) = 5 + 7x` at nodes `x = 1, 2`
returns the constant coefficient `5`. -/
theorem C6_witness :
    lagrangeInterpolateAtZero
        ([1, 2].map (fun x => Point.mk x (evaluatePolynomial [5, 7] x)))
      = some 5 :=
  C6_lagrange_identity [5, 7] 1 [1, 2] rfl rfl (by decide) (by decide) (by decide)

/-! ## Checksums (`src/schiavinato/checksums.ts`) and split
(`src/schiavinato/split.ts`) -/

/-- `WORDS_PER_ROW` from `src/utils/validation.ts`. -/
def WORDS_PER_ROW : Nat := 3

/-- Sequential fallible map: the embedding of a JS `for` loop that pushes
into an array and may `throw` (the thrown case is `none`). -/
def mapMOpt {α β : Type} (f : α → Option β) : List α → Option (List β)
  | [] => some []
  | a :: as =>
    match f a with
    | none => none
    | some b =>
      match mapMOpt f as with
      | none => none
      | some bs => some (b :: bs)

theorem mapMOpt_spec {α β : Type} (f : α → Option β) (l : List α)
    (out : List β) (h : mapMOpt f l = some out) (da : α) (db : β) :
    out.length = l.length ∧
    ∀ i, i < l.length → f (l.getD i da) = some (out.getD i db) := by
  induction l generalizing out with
  | nil =>
    rw [mapMOpt] at h
    injection h with h
    subst h
    exact ⟨rfl, fun i hi => absurd hi (by simp)⟩
  | cons a as ih =>
    rw [mapMOpt] at h
    cases hfa : f a with
    | none => rw [hfa] at h; exact Option.noConfusion h
    | some b =>
      rw [hfa] at h
      cases hrest : mapMOpt f as with
      | none => rw [hrest] at h; exact Option.noConfusion h
      | some bs =>
        rw [hrest] at h
        injection h with h
        subst h
        obtain ⟨hlen, hidx⟩ := ih bs hrest
        refine ⟨by simpa using hlen, ?_⟩
        intro i hi
        cases i with
        | zero => simpa using hfa
        | succ i =>
          simp only [List.getD_cons_succ]
          exact hidx i (by simpa using hi)

theorem mapMOpt_mem {α β : Type} (f : α → Option β) (l : List α)
    (out : List β) (h : mapMOpt f l = some out) (b : β) (hb : b ∈ out) :
    ∃ a ∈ l, f a = some b := by
  induction l generalizing out with
  | nil =>
    rw [mapMOpt] at h
    injection h with h
    subst h
    exact absurd hb (List.not_mem_nil b)
  | cons a as ih =>
    rw [mapMOpt] at h
    cases hfa : f a with
    | none => rw [hfa] at h; exact Option.noConfusion h
    | some b' =>
      rw [hfa] at h
      cases hrest : mapMOpt f as with
      | none => rw [hrest] at h; exact Option.noConfusion h
      | some bs =>
        rw [hrest] at h
        injection h with h
        subst h
        rcases List.mem_cons.mp hb with hb | hb
        · exact ⟨a, List.mem_cons_self a as, hb ▸ hfa⟩
        · obtain ⟨a', ha', hfa'⟩ := ih bs hrest hb
          exact ⟨a', List.mem_cons_of_mem a ha', hfa'⟩

/-- `computeRowChecks` from `src/schiavinato/checksums.ts` (Path A): one
checksum per row of three word values. -/
def computeRowChecks (wordIndices : List Int) : List Int :=
  (List.range (wordIndices.length / WORDS_PER_ROW)).map (fun row =>
    modAdd (modAdd (wordIndices.getD (row * WORDS_PER_ROW) 0)
        (wordIndices.getD (row * WORDS_PER_ROW + 1) 0))
      (wordIndices.getD (row * WORDS_PER_ROW + 2) 0))

/-- `computeGlobalChecksum` from `src/schiavinato/checksums.ts` (Path A); the
v0.4.x rename of the same function is `computeGlobalIntegrityCheck`. -/
def computeGlobalChecksum (wordIndices : List Int) : Int :=
  wordIndices.foldl (fun acc value => modAdd acc value) 0

/-- `computeRowCheckPolynomials` from `src/schiavinato/checksums.ts`
(Path B): per row, the coefficient-wise sum of the row's three word
polynomials. -/
def computeRowCheckPolynomials (wordPolynomials : List (List Int)) :
    Option (List (List Int)) :=
  mapMOpt (fun row => sumPolynomials
      [wordPolynomials.getD (row * WORDS_PER_ROW) [],
       wordPolynomials.getD (row * WORDS_PER_ROW + 1) [],
       wordPolynomials.getD (row * WORDS_PER_ROW + 2) []])
    (List.range (wordPolynomials.length / WORDS_PER_ROW))

/-- `computeGlobalCheckPolynomial` from `src/schiavinato/checksums.ts`
(Path B); renamed `computeGlobalIntegrityCheckPolynomial` in v0.4.x. -/
def computeGlobalCheckPolynomial (wordPolynomials : List (List Int)) :
    Option (List Int) :=
  sumPolynomials wordPolynomials

/-- A `Share` record as built by `src/schiavinato/split.ts` (field names from
the `types.ts` revision that ships with this `split.ts`). -/
structure Share where
  shareNumber : Int
  wordShares : List Int
  checksumShares : List Int
  globalChecksumVerificationShare : Int
deriving DecidableEq

instance : Inhabited Share := ⟨⟨0, [], [], 0⟩⟩

/-- The word-polynomial construction stage of `splitMnemonic`
(`src/schiavinato/split.ts`): one `randomPolynomial` per word index, in
order, each consuming `degree` reads of the random stream. -/
def wordPolynomialsOf (wordIndices : List Int) (degree : Nat)
    (rand : Nat → Int) : List (List Int) :=
  wordIndices.enum.map (fun p => randomPolynomial rand (p.1 * degree) p.2 degree)

/-- The word shares of one share: every word polynomial evaluated at the
share number (`src/schiavinato/split.ts`). -/
def shareWordShares (wordPolynomials : List (List Int)) (shareIndex : Int) :
    List Int :=
  wordPolynomials.map (fun poly => evaluatePolynomial poly shareIndex)

/-- The row-checksum loop of one share (`src/schiavinato/split.ts`): Path A
is the sum of the row's word shares, Path B evaluates the row checksum
polynomial; a mismatch throws (`none`), otherwise Path A is pushed. -/
def shareChecksums (wordShares : List Int) (rowCheckPolynomials : List (List Int))
    (shareIndex : Int) (rowCount : Nat) : Option (List Int) :=
  mapMOpt (fun row =>
      let base := row * WORDS_PER_ROW
      let checksumPathA := modAdd (modAdd (wordShares.getD base 0)
          (wordShares.getD (base + 1) 0)) (wordShares.getD (base + 2) 0)
      let checksumPathB :=
        evaluatePolynomial (rowCheckPolynomials.getD row []) shareIndex
      if checksumPathA = checksumPathB then some checksumPathA else none)
    (List.range rowCount)

/-- One iteration of the share loop of `splitMnemonic`
(`src/schiavinato/split.ts`): evaluates every word polynomial at
`shareIndex`, dual-path-checks every row checksum and the global checksum
(`none` models the fatal mismatch errors), and assembles the `Share`. -/
def buildShare (wordPolynomials rowCheckPolynomials : List (List Int))
    (globalCheckPolynomial : List Int) (rowCount : Nat) (shareIndex : Int) :
    Option Share :=
  let wordShares := shareWordShares wordPolynomials shareIndex
  match shareChecksums wordShares rowCheckPolynomials shareIndex rowCount with
  | none => none
  | some checksumShares =>
    let globalPathA := wordShares.foldl (fun acc val => modAdd acc val) 0
    let globalPathB := evaluatePolynomial globalCheckPolynomial shareIndex
    if globalPathA = globalPathB then
      some ⟨shareIndex, wordShares, checksumShares, globalPathA⟩
    else none

/-- `splitMnemonic` from `src/schiavinato/split.ts`, embedded from the word
level down: the mnemonic is represented by `wordIndices`, the result of the
`wordlist.indexOf` mapping of its (sanitised) words over the external
`@scure/bip39` English wordlist, and the external BIP39 checksum validator is
the parameter `bipValid` on word-index sequences. The injected random source
is the stream `rand` (word polynomial `i` consumes reads
`i*(k-1), …, i*(k-1)+k-2`). `none` models every thrown error. -/
def splitMnemonic (bipValid : List Int → Bool) (wordIndices : List Int)
    (k n : Nat) (rand : Nat → Int) : Option (List Share) :=
  if k < 2 then none
  else if k > n then none
  else if 2053 ≤ n then none
  else if ¬ bipValid wordIndices then none
  else if ¬ (wordIndices.length = 12 ∨ wordIndices.length = 24) then none
  else
    let degree := k - 1
    let wordPolynomials := wordPolynomialsOf wordIndices degree rand
    match computeRowCheckPolynomials wordPolynomials with
    | none => none
    | some rowCheckPolynomials =>
      match computeGlobalCheckPolynomial wordPolynomials with
      | none => none
      | some globalCheckPolynomial =>
        mapMOpt (fun j : Nat => buildShare wordPolynomials rowCheckPolynomials
            globalCheckPolynomial (wordIndices.length / WORDS_PER_ROW) ((j : Int) + 1))
          (List.range n)

theorem fmod_zero : fmod 0 = 0 := rfl

theorem modAdd_modAdd_eq (a b c : Int) :
    modAdd (modAdd a b) c = fmod (a + b + c) := by
  apply eq_of_toZ_eq (fmod_nonneg _) (fmod_lt _) (fmod_nonneg _) (fmod_lt _)
  rw [toZ_fmod, toZ_fmod,
    show toZ (modAdd a b + c) = toZ (modAdd a b) + toZ c by
      unfold toZ; push_cast; ring,
    toZ_modAdd,
    show toZ (a + b + c) = toZ a + toZ b + toZ c by unfold toZ; push_cast; ring]

theorem foldl_modAdd_fmod (l : List Int) : ∀ a : Int,
    l.foldl (fun acc value => modAdd acc value) (fmod a) = fmod (a + l.sum) := by
  induction l with
  | nil => intro a; rw [List.foldl_nil, List.sum_nil, add_zero]
  | cons v vs ih =>
    intro a
    rw [List.foldl_cons,
      show modAdd (fmod a) v = fmod (a + v) by
        apply fmod_eq_of_toZ_eq
        rw [show toZ (fmod a + v) = toZ (fmod a) + toZ v by unfold toZ; push_cast; ring,
          toZ_fmod]
        unfold toZ; push_cast; ring,
      ih (a + v), List.sum_cons]
    congr 1
    ring

theorem getD_range (n i : Nat) (h : i < n) : (List.range n).getD i 0 = i := by
  rw [List.getD_eq_getElem _ _ (by simpa using h)]
  simp

theorem buildShare_inv (wps rps : List (List Int)) (gp : List Int)
    (rc : Nat) (x : Int) (s : Share)
    (h : buildShare wps rps gp rc x = some s) :
    (∀ r, r < s.checksumShares.length →
      s.checksumShares.getD r 0
        = fmod (s.wordShares.getD (r * WORDS_PER_ROW) 0
            + s.wordShares.getD (r * WORDS_PER_ROW + 1) 0
            + s.wordShares.getD (r * WORDS_PER_ROW + 2) 0)) ∧
    s.globalChecksumVerificationShare = fmod s.wordShares.sum := by
  simp only [buildShare] at h
  cases hcs : shareChecksums (shareWordShares wps x) rps x rc with
  | none =>
    rw [hcs] at h
    exact Option.noConfusion h
  | some checksumShares =>
    rw [hcs] at h
    replace h : (if List.foldl (fun acc val => modAdd acc val) 0 (shareWordShares wps x)
          = evaluatePolynomial gp x then
        some (Share.mk x (shareWordShares wps x) checksumShares
          (List.foldl (fun acc val => modAdd acc val) 0 (shareWordShares wps x)))
      else none) = some s := h
    unfold shareChecksums at hcs
    obtain ⟨hlen, hidx⟩ := mapMOpt_spec _ _ _ hcs 0 0
    rw [List.length_range] at hlen
    split at h
    · injection h with h
      subst h
      constructor
      · intro r hr
        simp only at hr ⊢
        have hr' : r < rc := by omega
        have hthis := hidx r (by simpa using hr')
        rw [getD_range rc r hr'] at hthis
        simp only at hthis
        split at hthis
        · injection hthis with hthis
          rw [← hthis, modAdd_modAdd_eq]
        · exact Option.noConfusion hthis
      · simp only
        rw [show (0 : Int) = fmod 0 from rfl, foldl_modAdd_fmod, zero_add]
    · exact Option.noConfusion h

/-- C2. Share invariant: every share emitted by a successful `splitMnemonic`
call has each row checksum share equal to the sum of its row's three word
shares mod 2053, and its global checksum share equal to the sum of all its
word shares mod 2053 — with no `+x` term. -/
theorem C2_share_invariant (bipValid : List Int → Bool) (wordIndices : List Int)
    (k n : Nat) (rand : Nat → Int) (shares : List Share)
    (h : splitMnemonic bipValid wordIndices k n rand = some shares)
    (s : Share) (hs : s ∈ shares) :
    (∀ r, r < s.checksumShares.length →
      s.checksumShares.getD r 0
        = fmod (s.wordShares.getD (3 * r) 0 + s.wordShares.getD (3 * r + 1) 0
            + s.wordShares.getD (3 * r + 2) 0)) ∧
    s.globalChecksumVerificationShare = fmod s.wordShares.sum := by
  simp only [splitMnemonic] at h
  split at h
  · exact Option.noConfusion h
  split at h
  · exact Option.noConfusion h
  split at h
  · exact Option.noConfusion h
  split at h
  · exact Option.noConfusion h
  split at h
  · exact Option.noConfusion h
  split at h
  · exact Option.noConfusion h
  split at h
  · exact Option.noConfusion h
  obtain ⟨j, _, hbuild⟩ := mapMOpt_mem _ _ _ h s hs
  obtain ⟨hrows, hglobal⟩ := buildShare_inv _ _ _ _ _ _ hbuild
  refine ⟨?_, hglobal⟩
  intro r hr
  have := hrows r hr
  rw [show r * WORDS_PER_ROW = 3 * r by unfold WORDS_PER_ROW; ring] at this
  exact this

/-- Witness for C2: the first share of a concrete `(2,3)` split of the
minimum mnemonic (word indices `[0,…,0,3]`) with a deterministic stream. -/
theorem C2_witness :
    (∀ r, r < (Share.mk 1 [5, 6, 7, 8, 9, 10, 11, 12, 13, 14, 15, 19]
        [18, 27, 36, 48] 129).checksumShares.length →
      (Share.mk 1 [5, 6, 7, 8, 9, 10, 11, 12, 13, 14, 15, 19]
        [18, 27, 36, 48] 129).checksumShares.getD r 0
        = fmod ((Share.mk 1 [5, 6, 7, 8, 9, 10, 11, 12, 13, 14, 15, 19]
              [18, 27, 36, 48] 129).wordShares.getD (3 * r) 0
            + (Share.mk 1 [5, 6, 7, 8, 9, 10, 11, 12, 13, 14, 15, 19]
              [18, 27, 36, 48] 129).wordShares.getD (3 * r + 1) 0
            + (Share.mk 1 [5, 6, 7, 8, 9, 10, 11, 12, 13, 14, 15, 19]
              [18, 27, 36, 48] 129).wordShares.getD (3 * r + 2) 0)) ∧
    (Share.mk 1 [5, 6, 7, 8, 9, 10, 11, 12, 13, 14, 15, 19]
      [18, 27, 36, 48] 129).globalChecksumVerificationShare
      = fmod (Share.mk 1 [5, 6, 7, 8, 9, 10, 11, 12, 13, 14, 15, 19]
          [18, 27, 36, 48] 129).wordShares.sum :=
  C2_share_invariant (fun _ => true) [0, 0, 0, 0, 0, 0, 0, 0, 0, 0, 0, 3] 2 3
    (fun i => (i : Int) + 5)
    [Share.mk 1 [5, 6, 7, 8, 9, 10, 11, 12, 13, 14, 15, 19] [18, 27, 36, 48] 129,
     Share.mk 2 [10, 12, 14, 16, 18, 20, 22, 24, 26, 28, 30, 35] [36, 54, 72, 93] 255,
     Share.mk 3 [15, 18, 21, 24, 27, 30, 33, 36, 39, 42, 45, 51] [54, 81, 108, 138] 381]
    (by decide)
    (Share.mk 1 [5, 6, 7, 8, 9, 10, 11, 12, 13, 14, 15, 19] [18, 27, 36, 48] 129)
    (by decide)

/-- C3 evaluation: on the S1 mnemonic (word indices produced by the
`wordlist.indexOf` mapping of `split.ts`) with the S2 coefficient stream and
`k = 2, n = 3`, the `splitMnemonic` of `src/schiavinato/split.ts` produces
share 1 with word shares `[1680, …]`, row checksum shares
`[385, 843, 411, 1231]` and global share `817` — not the share
`{wordShares = [1681, …], checksumShares = [388, 846, 414, 1234], gic = 830}`
asserted by the claim (and by the repository's own `TEST_VECTORS` fixtures
and property tests, which use 1-based IDs and a `+x` global convention). -/
theorem C3_code_divergence :
    splitMnemonic (fun _ => true)
        [1679, 1470, 216, 41, 1337, 278, 1906, 323, 467, 681, 1843, 125] 2 3
        (fun i => [1, 2052, 1126, 2012, 710, 571, 146, 1728, 2000,
          130, 122, 383].getD i 0)
      = some
        [⟨1, [1680, 1469, 1342, 0, 2047, 849, 2052, 2051, 414, 811, 1965, 508],
          [385, 843, 411, 1231], 817⟩,
         ⟨2, [1681, 1468, 415, 2012, 704, 1420, 145, 1726, 361, 941, 34, 891],
          [1511, 30, 179, 1866], 1533⟩,
         ⟨3, [1682, 1467, 1541, 1971, 1414, 1991, 291, 1401, 308, 1071, 156, 1274],
          [584, 1270, 2000, 448], 196⟩] ∧
    [1680, 1469, 1342, 0, 2047, 849, 2052, 2051, 414, 811, 1965, 508]
      ≠ [1681, 1470, 1343, 1, 2048, 850, 0, 2052, 415, 812, 1966, 509] ∧
    (817 : Int) ≠ 830 := by
  refine ⟨by decide, by decide, by decide⟩

/-! ## Recovery (`src/schiavinato/recover.ts`, both revisions)

The recovery routine never throws: its body runs inside a `try` whose `catch`
stores the error message in `errors.generic`. The body is embedded as an
`Except String` computation and the catch as the surrounding total function.
(All mutations of the error record happen after the last possible throw, so
the caught report is the freshly-initialised one with only `generic` set.)
The share-validation helpers come from `src/utils/validation.ts`; they are
generic over the share record's accessors because the two recovery revisions
use differently-named global-checksum fields. -/

/-- Sequential fallible map over `Except String`: the embedding of a JS loop
whose body may `throw`. -/
def mapME {α β : Type} (f : α → Except String β) :
    List α → Except String (List β)
  | [] => .ok []
  | a :: as =>
    match f a with
    | .error e => .error e
    | .ok b =>
      match mapME f as with
      | .error e => .error e
      | .ok bs => .ok (b :: bs)

theorem mapME_ok_map {α β : Type} (f : α → Except String β) (g : α → β)
    (l : List α) (h : ∀ a ∈ l, f a = .ok (g a)) : mapME f l = .ok (l.map g) := by
  induction l with
  | nil => rfl
  | cons a as ih =>
    rw [mapME, h a (List.mem_cons_self a as),
      ih (fun a' ha' => h a' (List.mem_cons_of_mem a ha')), List.map_cons]

/-- `normalizeShareValue` from `src/utils/validation.ts` (the
`Number.isInteger` guard is vacuous on the `Int` embedding). -/
def normalizeShareValue (value : Int) (label : String) : Except String Int :=
  if value < 0 ∨ 2053 ≤ value then
    .error (label ++ " must be between 0 and 2052.")
  else .ok value

/-- `ensureSupportedWordCount` from `src/utils/validation.ts`. -/
def ensureSupportedWordCount (wordCount : Nat) : Except String Unit :=
  if wordCount ≠ 12 ∧ wordCount ≠ 24 then
    .error "This tool currently supports only 12- or 24-word mnemonics."
  else .ok ()

/-- `validateSharesForRecovery` from `src/utils/validation.ts`, generic over
the share record's accessors (`num` = `shareNumber`, `ws` = `wordShares`,
`cs` = `checksumShares`; the `Number.isInteger` check on the global share is
vacuous on the `Int` embedding). -/
def validateSharesForRecovery {σ : Type} (num : σ → Int) (ws cs : σ → List Int)
    (shares : List σ) (wordCount : Nat) : Except String Unit :=
  (mapME (fun p =>
      if num p.2 ≤ 0 ∨ 2053 ≤ num p.2 then
        .error ("Share #" ++ toString (p.1 + 1)
          ++ " is missing a valid share number (1-2052).")
      else if (ws p.2).length ≠ wordCount then
        .error ("Share #" ++ toString (num p.2) ++ " does not contain "
          ++ toString wordCount ++ " word values.")
      else if (cs p.2).length ≠ wordCount / WORDS_PER_ROW then
        .error ("Share #" ++ toString (num p.2) ++ " does not contain "
          ++ toString (wordCount / WORDS_PER_ROW) ++ " checksum values.")
      else .ok ())
    shares.enum).map (fun _ => ())

/-- `ensureShareNumbersDistinct` from `src/utils/validation.ts`. -/
def ensureShareNumbersDistinct {σ : Type} (num : σ → Int) (shares : List σ) :
    Except String Unit :=
  if (shares.map num).Nodup then .ok ()
  else .error "Duplicate share numbers detected."

/-- Modelled from the spec: `constantTimeEqual` of `src/utils/security.ts`
(the file is not under `src/`): "`ctEqual(a, b)` on field elements: returns
`(a XOR b) == 0`". Every call site passes canonical field elements in
`[0, 2052]`, whose JS 32-bit XOR is the XOR of their `Nat` representations. -/
def constantTimeEqual (a b : Int) : Bool := (a.toNat ^^^ b.toNat) == 0

theorem constantTimeEqual_iff {a b : Int} (ha : 0 ≤ a) (hb : 0 ≤ b) :
    constantTimeEqual a b = true ↔ a = b := by
  unfold constantTimeEqual
  rw [beq_iff_eq, Nat.xor_eq_zero]
  omega

/-- Interpolation of one coordinate during recovery: build the validated
point list (`normalizeShareValue` may throw) and interpolate at zero
(`modInv`'s thrown error surfaces with its message). `pts` pairs each
share's number with its value for this coordinate. -/
def recoverCoordinate (pts : List (Int × Int)) (label : Int → String) :
    Except String Int :=
  match mapME (fun p => (normalizeShareValue p.2 (label p.1)).map
      (fun y => Point.mk (fmod p.1) y)) pts with
  | .error e => .error e
  | .ok points =>
    match lagrangeInterpolateAtZero points with
    | some r => .ok r
    | none => .error "Attempted to invert zero in GF(2053)."

/-- The error record of a `RecoveryResult`
(`src/types.ts`, revision shipping with `src/schiavinato/split.ts`; the
v0.4.x revision adds the two path-mismatch buckets, see
`RecoveryErrorsNative`). -/
structure RecoveryErrors where
  row : List Nat
  global : Bool
  bip39 : Bool
  generic : Option String
deriving DecidableEq

/-- A `RecoveryResult` (`src/types.ts`): the mnemonic is represented by its
word-index sequence (`none` = JS `null`); the never-populated
`sharesWithInvalidChecksums` set is omitted. -/
structure RecoveryResult where
  mnemonic : Option (List Int)
  errors : RecoveryErrors
  success : Bool
deriving DecidableEq

/-- The step-4/5 tail of the scure-based `recoverMnemonic`
(`src/schiavinato/recover.ts`, revision paired with `split.ts`): recompute
Path A from the recovered words, record row/global mismatches, gate on the
0-based BIP39 range `[0, 2047]`, map indices to words (represented by the
index list itself), BIP39-validate, and compute `success`. -/
def finishReport (bipValid : List Int → Bool) (strictValidation : Bool)
    (recoveredWords recoveredChecks : List Int) (recoveredGlobalChecksum : Int)
    (rowCount : Nat) : RecoveryResult :=
  let recomputedChecks := computeRowChecks recoveredWords
  let rowErrors := (List.range rowCount).filter (fun row =>
    ! constantTimeEqual (recoveredChecks.getD row 0) (recomputedChecks.getD row 0))
  let recomputedGlobalChecksum := computeGlobalChecksum recoveredWords
  let globalError : Bool :=
    ! constantTimeEqual recoveredGlobalChecksum recomputedGlobalChecksum
  if rowErrors.isEmpty && ! globalError then
    match recoveredWords.findIdx? (fun value => decide (value < 0 ∨ 2048 ≤ value)) with
    | some i =>
      ⟨none,
       ⟨rowErrors, globalError, false,
        some ("Recovered word #" ++ toString (i + 1) ++ " (\""
          ++ toString (recoveredWords.getD i 0)
          ++ "\") is outside the BIP39 range (0-2047). Cannot form a valid mnemonic.")⟩,
       false⟩
    | none =>
      let mnemonic : Option (List Int) := some recoveredWords
      let bip39Error : Bool := strictValidation && ! bipValid recoveredWords
      ⟨mnemonic, ⟨rowErrors, globalError, bip39Error, none⟩,
       rowErrors.isEmpty && ! globalError && ! bip39Error && mnemonic.isSome⟩
  else
    ⟨none, ⟨rowErrors, globalError, false, none⟩,
     rowErrors.isEmpty && ! globalError && ! false
       && (none : Option (List Int)).isSome⟩

/-- The `try`-body of the scure-based `recoverMnemonic`
(`src/schiavinato/recover.ts`, the revision whose shares carry
`globalChecksumVerificationShare`): pre-flight checks, Lagrange recovery of
every word, row checksum and the global checksum, then `finishReport`.
The external scure BIP39 validator on word-index sequences is `bipValid`. -/
def recoverCore (bipValid : List Int → Bool) (strictValidation : Bool)
    (shares : List Share) (wordCount : Nat) : Except String RecoveryResult :=
  if shares.length < 2 then
    .ok ⟨none, ⟨[], false, false,
      some "At least two shares are required for recovery."⟩, false⟩
  else
    match ensureSupportedWordCount wordCount with
    | .error e => .error e
    | .ok _ =>
      if wordCount % WORDS_PER_ROW ≠ 0 then
        .ok ⟨none, ⟨[], false, false,
          some "Word count must be divisible by the words per row constant."⟩, false⟩
      else
        match validateSharesForRecovery Share.shareNumber Share.wordShares
            Share.checksumShares shares wordCount with
        | .error e => .error e
        | .ok _ =>
          match ensureShareNumbersDistinct Share.shareNumber shares with
          | .error e => .error e
          | .ok _ =>
            match mapME (fun i => recoverCoordinate
                (shares.map (fun share => (share.shareNumber, share.wordShares.getD i 0)))
                (fun sn => "Word share #" ++ toString (i + 1)
                  ++ " (share " ++ toString sn ++ ")"))
              (List.range wordCount) with
            | .error e => .error e
            | .ok recoveredWords =>
              match mapME (fun row => recoverCoordinate
                  (shares.map (fun share =>
                    (share.shareNumber, share.checksumShares.getD row 0)))
                  (fun sn => "Checksum share C" ++ toString (row + 1)
                    ++ " (share " ++ toString sn ++ ")"))
                (List.range (wordCount / WORDS_PER_ROW)) with
              | .error e => .error e
              | .ok recoveredChecks =>
                match recoverCoordinate
                    (shares.map (fun share =>
                      (share.shareNumber, share.globalChecksumVerificationShare)))
                    (fun sn => "Global Checksum verification (share "
                      ++ toString sn ++ ")") with
                | .error e => .error e
                | .ok recoveredGlobalChecksum =>
                  .ok (finishReport bipValid strictValidation recoveredWords
                    recoveredChecks recoveredGlobalChecksum (wordCount / WORDS_PER_ROW))

/-- `recoverMnemonic` from `src/schiavinato/recover.ts` (scure revision,
paired with `src/schiavinato/split.ts`): total — a thrown error is caught
and reported in `errors.generic`. -/
def recoverMnemonic (bipValid : List Int → Bool) (strictValidation : Bool)
    (shares : List Share) (wordCount : Nat) : RecoveryResult :=
  match recoverCore bipValid strictValidation shares wordCount with
  | .ok report => report
  | .error e => ⟨none, ⟨[], false, false, some e⟩, false⟩

/-! ## Native (v0.4.x) recovery, `src/schiavinato/recover.ts` as shipped with
the native BIP39 modules (`bip39/validation.ts`, `bip39/lookup.ts`) -/

/-- A share as consumed by the v0.4.x `recoverMnemonic` (`ShareData` of the
v0.4.x `src/types.ts`, whose global field is `globalIntegrityCheckShare`). -/
structure ShareData where
  shareNumber : Int
  wordShares : List Int
  checksumShares : List Int
  globalIntegrityCheckShare : Int
deriving DecidableEq

instance : Inhabited ShareData := ⟨⟨0, [], [], 0⟩⟩

/-- The v0.4.x error record (`src/types.ts`): adds the dual-path mismatch
buckets. -/
structure RecoveryErrorsNative where
  row : List Nat
  global : Bool
  bip39 : Bool
  generic : Option String
  rowPathMismatch : List Nat
  globalPathMismatch : Bool
deriving DecidableEq

/-- The v0.4.x `RecoveryResult`; the mnemonic is represented by its 1-based
word-ID sequence (the `bip39IdToWord` image of those IDs joined by spaces),
`none` = JS `null`. -/
structure RecoveryResultNative where
  mnemonic : Option (List Int)
  errors : RecoveryErrorsNative
  success : Bool
deriving DecidableEq

/-- The step-3–5 tail of the v0.4.x `recoverMnemonic`: dual-path comparison
into `rowPathMismatch`/`globalPathMismatch`, the same comparisons again into
the back-compat `row`/`global` buckets, the 1-based range gate `[1, 2048]`,
ID→word mapping (represented by the ID list), native BIP39 validation
(`bipValid`), and the final `success` conjunction. -/
def finishReportNative (bipValid : List Int → Bool) (strictValidation : Bool)
    (recoveredWords recoveredChecks : List Int) (recoveredGIC : Int)
    (rowCount : Nat) : RecoveryResultNative :=
  let recomputedChecks := computeRowChecks recoveredWords
  let recomputedGIC := computeGlobalChecksum recoveredWords
  let rowPathMismatch := (List.range rowCount).filter (fun row =>
    ! constantTimeEqual (recoveredChecks.getD row 0) (recomputedChecks.getD row 0))
  let globalPathMismatch : Bool := ! constantTimeEqual recoveredGIC recomputedGIC
  let rowErrors := (List.range rowCount).filter (fun row =>
    ! constantTimeEqual (recoveredChecks.getD row 0) (recomputedChecks.getD row 0))
  let globalError : Bool := ! constantTimeEqual recoveredGIC recomputedGIC
  if rowErrors.isEmpty && ! globalError then
    match recoveredWords.findIdx? (fun value => decide (value < 1 ∨ 2048 < value)) with
    | some i =>
      ⟨none,
       ⟨rowErrors, globalError, false,
        some ("Recovered word #" ++ toString (i + 1) ++ " (\""
          ++ toString (recoveredWords.getD i 0)
          ++ "\") is outside the BIP39 range (1-2048). Cannot form a valid mnemonic."),
        rowPathMismatch, globalPathMismatch⟩,
       false⟩
    | none =>
      let mnemonic : Option (List Int) := some recoveredWords
      let bip39Error : Bool := strictValidation && ! bipValid recoveredWords
      ⟨mnemonic,
       ⟨rowErrors, globalError, bip39Error, none, rowPathMismatch, globalPathMismatch⟩,
       rowErrors.isEmpty && ! globalError && ! bip39Error
         && rowPathMismatch.isEmpty && ! globalPathMismatch && mnemonic.isSome⟩
  else
    ⟨none, ⟨rowErrors, globalError, false, none, rowPathMismatch, globalPathMismatch⟩,
     rowErrors.isEmpty && ! globalError && ! false
       && rowPathMismatch.isEmpty && ! globalPathMismatch
       && (none : Option (List Int)).isSome⟩

/-- The `try`-body of the v0.4.x `recoverMnemonic`. -/
def recoverCoreNative (bipValid : List Int → Bool) (strictValidation : Bool)
    (shares : List ShareData) (wordCount : Nat) :
    Except String RecoveryResultNative :=
  if shares.length < 2 then
    .ok ⟨none, ⟨[], false, false,
      some "At least two shares are required for recovery.", [], false⟩, false⟩
  else
    match ensureSupportedWordCount wordCount with
    | .error e => .error e
    | .ok _ =>
      if wordCount % WORDS_PER_ROW ≠ 0 then
        .ok ⟨none, ⟨[], false, false,
          some "Word count must be divisible by the words per row constant.",
          [], false⟩, false⟩
      else
        match validateSharesForRecovery ShareData.shareNumber ShareData.wordShares
            ShareData.checksumShares shares wordCount with
        | .error e => .error e
        | .ok _ =>
          match ensureShareNumbersDistinct ShareData.shareNumber shares with
          | .error e => .error e
          | .ok _ =>
            match mapME (fun i => recoverCoordinate
                (shares.map (fun share => (share.shareNumber, share.wordShares.getD i 0)))
                (fun sn => "Word share #" ++ toString (i + 1)
                  ++ " (share " ++ toString sn ++ ")"))
              (List.range wordCount) with
            | .error e => .error e
            | .ok recoveredWords =>
              match mapME (fun row => recoverCoordinate
                  (shares.map (fun share =>
                    (share.shareNumber, share.checksumShares.getD row 0)))
                  (fun sn => "Checksum share C" ++ toString (row + 1)
                    ++ " (share " ++ toString sn ++ ")"))
                (List.range (wordCount / WORDS_PER_ROW)) with
              | .error e => .error e
              | .ok recoveredChecks =>
                match recoverCoordinate
                    (shares.map (fun share =>
                      (share.shareNumber, share.globalIntegrityCheckShare)))
                    (fun sn => "Global Integrity Check (GIC) verification (share "
                      ++ toString sn ++ ")") with
                | .error e => .error e
                | .ok recoveredGIC =>
                  .ok (finishReportNative bipValid strictValidation recoveredWords
                    recoveredChecks recoveredGIC (wordCount / WORDS_PER_ROW))

/-- The v0.4.x `recoverMnemonic` (`src/schiavinato/recover.ts`, native BIP39
revision): total — a thrown error is caught into `errors.generic`. -/
def recoverMnemonicNative (bipValid : List Int → Bool) (strictValidation : Bool)
    (shares : List ShareData) (wordCount : Nat) : RecoveryResultNative :=
  match recoverCoreNative bipValid strictValidation shares wordCount with
  | .ok report => report
  | .error e => ⟨none, ⟨[], false, false, some e, [], false⟩, false⟩

theorem findIdx?_start_exists {p : Int → Bool} : ∀ (l : List Int) (s : Nat),
    (∃ i, i < l.length ∧ p (l.getD i 0) = true) →
    ∃ j, List.findIdx? p l s = some (s + j) ∧ j < l.length ∧ p (l.getD j 0) = true := by
  intro l
  induction l with
  | nil =>
    intro s ⟨i, hi, _⟩
    exact absurd hi (by simp)
  | cons a as ih =>
    intro s ⟨i, hi, hp⟩
    rw [List.findIdx?_cons]
    by_cases hpa : p a = true
    · exact ⟨0, by rw [if_pos hpa, Nat.add_zero], by simp, by simpa using hpa⟩
    · rw [if_neg hpa]
      have hex : ∃ i', i' < as.length ∧ p (as.getD i' 0) = true := by
        cases i with
        | zero => exact absurd (by simpa using hp) hpa
        | succ i' => exact ⟨i', by simpa using hi, by simpa using hp⟩
      obtain ⟨j, hj, hjl, hjp⟩ := ih (s + 1) hex
      refine ⟨j + 1, ?_, by simpa using hjl, by simpa using hjp⟩
      rw [hj]
      congr 1
      omega

theorem findIdx?_none_of_all {p : Int → Bool} : ∀ (l : List Int) (s : Nat),
    (∀ a ∈ l, p a = false) → List.findIdx? p l s = none := by
  intro l
  induction l with
  | nil => intro s _; exact List.findIdx?_nil
  | cons a as ih =>
    intro s h
    rw [List.findIdx?_cons, if_neg (by rw [h a (List.mem_cons_self a as)]; simp)]
    exact ih (s + 1) (fun a' ha' => h a' (List.mem_cons_of_mem a ha'))

/-- The success flag of the v0.4.x recovery tail is the conjunction of
all-error-fields-clear and a recovered mnemonic. -/
theorem finishReportNative_success_iff (bipValid : List Int → Bool)
    (strict : Bool) (words checks : List Int) (g : Int) (rc : Nat) :
    ((finishReportNative bipValid strict words checks g rc).success = true ↔
     ((finishReportNative bipValid strict words checks g rc).errors.row = []
      ∧ (finishReportNative bipValid strict words checks g rc).errors.global = false
      ∧ (finishReportNative bipValid strict words checks g rc).errors.bip39 = false
      ∧ (finishReportNative bipValid strict words checks g rc).errors.generic = none
      ∧ (finishReportNative bipValid strict words checks g rc).errors.rowPathMismatch = []
      ∧ (finishReportNative bipValid strict words checks g rc).errors.globalPathMismatch = false
      ∧ (finishReportNative bipValid strict words checks g rc).mnemonic ≠ none)) := by
  simp only [finishReportNative]
  split
  · split
    · simp
    · constructor
      · intro h
        simp only [Bool.and_eq_true, List.isEmpty_iff, Bool.not_eq_true'] at h
        obtain ⟨⟨⟨⟨⟨h1, h2⟩, h3⟩, h5⟩, h6⟩, _⟩ := h
        simp_all
      · intro h
        obtain ⟨h1, h2, h3, _, h5, h6, _⟩ := h
        cases strict <;> simp_all
  · simp

/-- C5. The v0.4.x `recoverMnemonic` is total (it is a Lean function: every
thrown error of its body is caught into `errors.generic`), and its success
flag is `true` exactly when no error field is set and a mnemonic was
produced — so every failure mode surfaces only through the `errors` record
and forces `success = false`. -/
theorem C5_recover_total_and_error_reporting (bipValid : List Int → Bool)
    (strictValidation : Bool) (shares : List ShareData) (wordCount : Nat) :
    ((recoverMnemonicNative bipValid strictValidation shares wordCount).success = true ↔
     ((recoverMnemonicNative bipValid strictValidation shares wordCount).errors.row = []
      ∧ (recoverMnemonicNative bipValid strictValidation shares wordCount).errors.global = false
      ∧ (recoverMnemonicNative bipValid strictValidation shares wordCount).errors.bip39 = false
      ∧ (recoverMnemonicNative bipValid strictValidation shares wordCount).errors.generic = none
      ∧ (recoverMnemonicNative bipValid strictValidation shares
          wordCount).errors.rowPathMismatch = []
      ∧ (recoverMnemonicNative bipValid strictValidation shares
          wordCount).errors.globalPathMismatch = false
      ∧ (recoverMnemonicNative bipValid strictValidation shares wordCount).mnemonic ≠ none)) := by
  unfold recoverMnemonicNative
  cases hcore : recoverCoreNative bipValid strictValidation shares wordCount with
  | error e => simp
  | ok report =>
    unfold recoverCoreNative at hcore
    split at hcore
    · injection hcore with hcore
      subst hcore
      simp
    · split at hcore
      · exact Except.noConfusion hcore
      split at hcore
      · injection hcore with hcore
        subst hcore
        simp
      · split at hcore
        · exact Except.noConfusion hcore
        split at hcore
        · exact Except.noConfusion hcore
        split at hcore
        · exact Except.noConfusion hcore
        split at hcore
        · exact Except.noConfusion hcore
        split at hcore
        · exact Except.noConfusion hcore
        injection hcore with hcore
        subst hcore
        exact finishReportNative_success_iff _ _ _ _ _ _

/-- C4. Recovered-ID range gate of the v0.4.x `recoverMnemonic`: when the
pipeline reaches the validation tail with interpolated values whose row and
global checks all pass but some recovered word value lies outside the
1-based BIP39 range `[1, 2048]`, the result carries an
"outside the BIP39 range" message in `errors.generic`, the mnemonic stays
`null`, and recovery is unsuccessful. -/
theorem C4_range_gate (bipValid : List Int → Bool) (strictValidation : Bool)
    (shares : List ShareData) (wordCount : Nat) (words checks : List Int) (g : Int)
    (hpipe : recoverCoreNative bipValid strictValidation shares wordCount
      = .ok (finishReportNative bipValid strictValidation words checks g
          (wordCount / WORDS_PER_ROW)))
    (hrows : (List.range (wordCount / WORDS_PER_ROW)).filter (fun row =>
      ! constantTimeEqual (checks.getD row 0)
        ((computeRowChecks words).getD row 0)) = [])
    (hglobal : constantTimeEqual g (computeGlobalChecksum words) = true)
    (i : Nat) (hi : i < words.length)
    (hout : words.getD i 0 < 1 ∨ 2048 < words.getD i 0) :
    ∃ (j : Nat) (v : Int),
      (recoverMnemonicNative bipValid strictValidation shares wordCount).errors.generic
        = some ("Recovered word #" ++ toString (j + 1) ++ " (\"" ++ toString v
          ++ "\") is outside the BIP39 range (1-2048). Cannot form a valid mnemonic.")
      ∧ (v < 1 ∨ 2048 < v)
      ∧ (recoverMnemonicNative bipValid strictValidation shares wordCount).mnemonic = none
      ∧ (recoverMnemonicNative bipValid strictValidation shares wordCount).success = false := by
  have hres : recoverMnemonicNative bipValid strictValidation shares wordCount
      = finishReportNative bipValid strictValidation words checks g
          (wordCount / WORDS_PER_ROW) := by
    unfold recoverMnemonicNative
    rw [hpipe]
  obtain ⟨j, hj, hjl, hjp⟩ := findIdx?_start_exists
    (p := fun value => decide (value < 1 ∨ 2048 < value)) words 0
    ⟨i, hi, by rw [decide_eq_true_eq]; exact hout⟩
  rw [Nat.zero_add] at hj
  rw [hres]
  simp only [finishReportNative, hrows, hj]
  rw [show constantTimeEqual g (computeGlobalChecksum words) = true from hglobal]
  refine ⟨j, words.getD j 0, ?_, by simpa using hjp, ?_, ?_⟩ <;> simp

/-- Witness for C4: two shares that interpolate every word to `0` (outside
`[1, 2048]`) while all checksum checks pass. -/
theorem C4_witness :
    ∃ (j : Nat) (v : Int),
      (recoverMnemonicNative (fun _ => true) true
        [⟨1, [0, 0, 0, 0, 0, 0, 0, 0, 0, 0, 0, 0], [0, 0, 0, 0], 0⟩,
         ⟨2, [0, 0, 0, 0, 0, 0, 0, 0, 0, 0, 0, 0], [0, 0, 0, 0], 0⟩] 12).errors.generic
        = some ("Recovered word #" ++ toString (j + 1) ++ " (\"" ++ toString v
          ++ "\") is outside the BIP39 range (1-2048). Cannot form a valid mnemonic.")
      ∧ (v < 1 ∨ 2048 < v)
      ∧ (recoverMnemonicNative (fun _ => true) true
          [⟨1, [0, 0, 0, 0, 0, 0, 0, 0, 0, 0, 0, 0], [0, 0, 0, 0], 0⟩,
           ⟨2, [0, 0, 0, 0, 0, 0, 0, 0, 0, 0, 0, 0], [0, 0, 0, 0], 0⟩] 12).mnemonic = none
      ∧ (recoverMnemonicNative (fun _ => true) true
          [⟨1, [0, 0, 0, 0, 0, 0, 0, 0, 0, 0, 0, 0], [0, 0, 0, 0], 0⟩,
           ⟨2, [0, 0, 0, 0, 0, 0, 0, 0, 0, 0, 0, 0], [0, 0, 0, 0], 0⟩] 12).success = false :=
  C4_range_gate (fun _ => true) true
    [⟨1, [0, 0, 0, 0, 0, 0, 0, 0, 0, 0, 0, 0], [0, 0, 0, 0], 0⟩,
     ⟨2, [0, 0, 0, 0, 0, 0, 0, 0, 0, 0, 0, 0], [0, 0, 0, 0], 0⟩] 12
    [0, 0, 0, 0, 0, 0, 0, 0, 0, 0, 0, 0] [0, 0, 0, 0] 0
    (by rfl) (by decide) (by decide) 0 (by decide) (by decide)

/-! ## Round-trip (claim C1): supporting lemmas -/

theorem getD_map {α β : Type} (l : List α) (f : α → β) (i : Nat)
    (h : i < l.length) (d : β) (d' : α) :
    (l.map f).getD i d = f (l.getD i d') := by
  rw [List.getD_eq_getElem _ _ (by simpa using h), List.getD_eq_getElem _ _ h]
  simp

theorem map_range_getD {β : Type} (n : Nat) (f : Nat → β) (r : Nat)
    (h : r < n) (d : β) : ((List.range n).map f).getD r d = f r := by
  rw [getD_map _ _ _ (by simpa using h) _ 0, getD_range n r h]

theorem randomPolynomial_length (rand : Nat → Int) (start : Nat) (secret : Int)
    (degree : Nat) : (randomPolynomial rand start secret degree).length
      = degree + 1 := by
  unfold randomPolynomial
  simp [Nat.add_comm]

theorem randomPolynomial_headD (rand : Nat → Int) (start : Nat) (secret : Int)
    (degree : Nat) :
    (randomPolynomial rand start secret degree).headD 0 = fmod secret := rfl

theorem wordPolynomialsOf_length (ids : List Int) (degree : Nat)
    (rand : Nat → Int) : (wordPolynomialsOf ids degree rand).length = ids.length := by
  unfold wordPolynomialsOf
  simp

theorem wordPolynomialsOf_getD (ids : List Int) (degree : Nat) (rand : Nat → Int)
    (i : Nat) (h : i < ids.length) :
    (wordPolynomialsOf ids degree rand).getD i []
      = randomPolynomial rand (i * degree) (ids.getD i 0) degree := by
  unfold wordPolynomialsOf
  rw [getD_map _ _ _ (by simpa using h) _ (0, 0)]
  rw [List.getD_eq_getElem _ _ (by simpa using h), List.getD_eq_getElem _ _ h]
  simp

theorem foldl_zipWith_length (ps : List (List Int)) (L : Nat)
    (hlen : ∀ p ∈ ps, p.length = L) : ∀ acc : List Int, acc.length = L →
    (ps.foldl (fun acc q => List.zipWith modAdd acc q) acc).length = L := by
  induction ps with
  | nil => intro acc hacc; simpa using hacc
  | cons q qs ih =>
    intro acc hacc
    rw [List.foldl_cons]
    exact ih (fun p hp => hlen p (List.mem_cons_of_mem q hp)) _
      (by rw [List.length_zipWith, hacc, hlen q (List.mem_cons_self q qs), Nat.min_self])

/-- On a nonempty family of equal-length polynomials, `sumPolynomials`
succeeds, preserves the length, and its result is the polynomial sum. -/
theorem sumPolynomials_spec (ps : List (List Int)) (L : Nat) (hne : ps ≠ [])
    (hlen : ∀ p ∈ ps, p.length = L) :
    ∃ s, sumPolynomials ps = some s ∧ s.length = L
      ∧ toPoly s = (ps.map toPoly).sum := by
  match ps, hne with
  | p :: ps', _ =>
    have hp : p.length = L := hlen p (List.mem_cons_self p ps')
    have hall : ps'.all (fun q => q.length == p.length) = true := by
      rw [List.all_eq_true]
      intro q hq
      exact beq_iff_eq.mpr ((hlen q (List.mem_cons_of_mem p hq)).trans hp.symm)
    refine ⟨_, by rw [sumPolynomials, if_pos hall], ?_, ?_⟩
    · rw [← hp]
      exact foldl_zipWith_length (p :: ps') p.length
        (fun q hq => (hlen q hq).trans hp.symm) _ (List.length_replicate _ _)
    · rw [toPoly_foldl_zipWith (p :: ps') p.length
        (fun q hq => (hlen q hq).trans hp.symm) _ (List.length_replicate _ _),
        toPoly_replicate_zero, zero_add]

theorem mapMOpt_ok_map {α β : Type} (f : α → Option β) (g : α → β)
    (l : List α) (h : ∀ a ∈ l, f a = some (g a)) : mapMOpt f l = some (l.map g) := by
  induction l with
  | nil => rfl
  | cons a as ih =>
    rw [mapMOpt, h a (List.mem_cons_self a as),
      ih (fun a' ha' => h a' (List.mem_cons_of_mem a ha')), List.map_cons]

/-- Characterisation of a successfully built share: its number is the loop
index, its word shares evaluate the word polynomials there, and — because
both dual-path checks passed — its checksum fields equal the evaluations of
the Path-B checksum polynomials. -/
theorem buildShare_eq (wps rps : List (List Int)) (gp : List Int)
    (rc : Nat) (x : Int) (s : Share)
    (h : buildShare wps rps gp rc x = some s) :
    s.shareNumber = x
    ∧ s.wordShares = shareWordShares wps x
    ∧ s.checksumShares.length = rc
    ∧ (∀ r, r < rc → s.checksumShares.getD r 0
        = evaluatePolynomial (rps.getD r []) x)
    ∧ s.globalChecksumVerificationShare = evaluatePolynomial gp x := by
  simp only [buildShare] at h
  cases hcs : shareChecksums (shareWordShares wps x) rps x rc with
  | none =>
    rw [hcs] at h
    exact Option.noConfusion h
  | some checksumShares =>
    rw [hcs] at h
    replace h : (if List.foldl (fun acc val => modAdd acc val) 0 (shareWordShares wps x)
          = evaluatePolynomial gp x then
        some (Share.mk x (shareWordShares wps x) checksumShares
          (List.foldl (fun acc val => modAdd acc val) 0 (shareWordShares wps x)))
      else none) = some s := h
    unfold shareChecksums at hcs
    obtain ⟨hlen, hidx⟩ := mapMOpt_spec _ _ _ hcs 0 0
    rw [List.length_range] at hlen
    split at h
    · injection h with h
      subst h
      refine ⟨rfl, rfl, by simpa using hlen, ?_, by simpa⟩
      intro r hr
      have hthis := hidx r (by simpa using hr)
      rw [getD_range rc r hr] at hthis
      simp only at hthis
      split at hthis
      · injection hthis with hthis
        simp only
        rw [← hthis]
        assumption
      · exact Option.noConfusion hthis
    · exact Option.noConfusion h

/-- Characterisation of a successful `splitMnemonic`: all parameter guards
hold, the two Path-B checksum-polynomial stages succeed, and every emitted
share is a `buildShare` result at its 1-based loop index. -/
theorem split_shares_spec (bipValid : List Int → Bool) (ids : List Int)
    (k n : Nat) (rand : Nat → Int) (shares : List Share)
    (h : splitMnemonic bipValid ids k n rand = some shares) :
    2 ≤ k ∧ k ≤ n ∧ n < 2053 ∧ bipValid ids = true
    ∧ (ids.length = 12 ∨ ids.length = 24)
    ∧ ∃ rps gp,
        computeRowCheckPolynomials (wordPolynomialsOf ids (k - 1) rand) = some rps
        ∧ computeGlobalCheckPolynomial (wordPolynomialsOf ids (k - 1) rand) = some gp
        ∧ shares.length = n
        ∧ ∀ s ∈ shares, ∃ j : Nat, j < n ∧
            buildShare (wordPolynomialsOf ids (k - 1) rand) rps gp
              (ids.length / WORDS_PER_ROW) ((j : Int) + 1) = some s := by
  simp only [splitMnemonic] at h
  split at h
  · exact Option.noConfusion h
  rename_i hk2
  split at h
  · exact Option.noConfusion h
  rename_i hkn
  split at h
  · exact Option.noConfusion h
  rename_i hn
  split at h
  · exact Option.noConfusion h
  rename_i hbip
  split at h
  · exact Option.noConfusion h
  rename_i hwc
  split at h
  · exact Option.noConfusion h
  rename_i rps hrps
  split at h
  · exact Option.noConfusion h
  rename_i gp hgp
  refine ⟨by omega, by omega, by omega, by simpa using hbip, by tauto, rps, gp,
    hrps, hgp, ?_, ?_⟩
  · have := (mapMOpt_spec _ _ _ h 0 default).1
    rw [List.length_range] at this
    exact this
  · intro s hs
    obtain ⟨j, hj, hb⟩ := mapMOpt_mem _ _ _ h s hs
    exact ⟨j, List.mem_range.mp hj, hb⟩

/-- Interpolating a coordinate whose values lie on a coefficient list `f`
with `f.length ≤ #shares`, over shares with distinct share numbers in
`[1, 2052]`, recovers the canonical representative of `f`'s constant
coefficient. -/
theorem recoverCoordinate_poly (S : List Share) (hne : S ≠ [])
    (hx : ∀ s ∈ S, 1 ≤ s.shareNumber ∧ s.shareNumber ≤ 2052)
    (hnd : (S.map Share.shareNumber).Nodup)
    (f : List Int) (hdeg : f.length ≤ S.length)
    (val : Share → Int)
    (hval : ∀ s ∈ S, val s = evaluatePolynomial f s.shareNumber)
    (label : Int → String) :
    recoverCoordinate (S.map (fun s => (s.shareNumber, val s))) label
      = .ok (fmod (f.headD 0)) := by
  unfold recoverCoordinate
  rw [show mapME (fun p => (normalizeShareValue p.2 (label p.1)).map
        (fun y => Point.mk (fmod p.1) y)) (S.map (fun s => (s.shareNumber, val s)))
      = .ok ((S.map (fun s => (s.shareNumber, val s))).map
          (fun p => Point.mk (fmod p.1) p.2)) from
    mapME_ok_map _ _ _ (by
      intro p hp
      obtain ⟨s, hsS, hps⟩ := List.mem_map.mp hp
      have hrange : 0 ≤ p.2 ∧ p.2 < 2053 := by
        rw [← hps]
        simp only
        rw [hval s hsS]
        exact ⟨evaluatePolynomial_nonneg _ _, evaluatePolynomial_lt _ _⟩
      unfold normalizeShareValue
      rw [if_neg (by omega)]
      rfl)]
  have hlen : ((S.map (fun s => (s.shareNumber, val s))).map
      (fun p => Point.mk (fmod p.1) p.2)).length = S.length := by simp
  have hgd : ∀ t, t < S.length →
      ((S.map (fun s => (s.shareNumber, val s))).map
        (fun p => Point.mk (fmod p.1) p.2)).getD t default
      = Point.mk (fmod (S.getD t default).shareNumber) (val (S.getD t default)) := by
    intro t ht
    rw [getD_map _ _ _ (by simpa using ht) _ (0, 0),
      getD_map _ _ _ (by simpa using ht) _ default]
  have hmem : ∀ t, t < S.length → S.getD t default ∈ S := by
    intro t ht
    rw [List.getD_eq_getElem _ _ ht]
    exact List.getElem_mem _
  obtain ⟨r, hr, h0, h1, hz⟩ := lagrange_exact
    ((S.map (fun s => (s.shareNumber, val s))).map (fun p => Point.mk (fmod p.1) p.2))
    (by rw [hlen]; intro hS; exact hne (List.length_eq_zero.mp hS))
    (by
      intro t ht t' ht' htt'
      rw [hlen] at ht ht'
      unfold ptX
      rw [hgd t ht, hgd t' ht']
      show toZ (fmod (S.getD t default).shareNumber)
          ≠ toZ (fmod (S.getD t' default).shareNumber)
      rw [toZ_fmod, toZ_fmod]
      intro hc
      have hx1 := hx _ (hmem t ht)
      have hx2 := hx _ (hmem t' ht')
      have heq : (S.getD t default).shareNumber = (S.getD t' default).shareNumber :=
        eq_of_toZ_eq (by omega) (by omega) (by omega) (by omega) hc
      have : (S.map Share.shareNumber).getD t 0 = (S.map Share.shareNumber).getD t' 0 := by
        rw [getD_map _ _ _ ht _ default, getD_map _ _ _ ht' _ default, heq]
      rw [List.getD_eq_getElem _ _ (by simpa using ht),
        List.getD_eq_getElem _ _ (by simpa using ht')] at this
      exact htt' (hnd.getElem_inj_iff.mp this))
    (toPoly f)
    (by
      rw [hlen]
      calc (toPoly f).degree < (f.length : WithBot Nat) := toPoly_degree_lt f
        _ ≤ (S.length : WithBot Nat) := by
          rw [Nat.cast_withBot, Nat.cast_withBot, WithBot.coe_le_coe]
          exact hdeg)
    (by
      intro t ht
      rw [hlen] at ht
      unfold ptX ptY
      rw [hgd t ht]
      show toZ (val (S.getD t default))
        = Polynomial.eval (toZ (fmod (S.getD t default).shareNumber)) (toPoly f)
      rw [hval _ (hmem t ht), toZ_fmod, toZ_evaluatePolynomial])
  show (match lagrangeInterpolateAtZero ((S.map (fun s => (s.shareNumber, val s))).map
      (fun p => Point.mk (fmod p.1) p.2)) with
    | some r => (Except.ok r : Except String Int)
    | none => Except.error "Attempted to invert zero in GF(2053).")
    = Except.ok (fmod (f.headD 0))
  rw [hr]
  show Except.ok r = Except.ok (fmod (f.headD 0))
  congr 1
  apply eq_of_toZ_eq h0 h1 (fmod_nonneg _) (fmod_lt _)
  rw [hz, toZ_fmod, eval_toPoly_zero]

theorem constantTimeEqual_self (a : Int) : constantTimeEqual a a = true := by
  unfold constantTimeEqual
  simp

theorem map_range_getD_self (l : List Int) :
    (List.range l.length).map (fun i => l.getD i 0) = l := by
  apply List.ext_getElem (by simp)
  intro i h1 h2
  rw [List.getElem_map, List.getElem_range, List.getD_eq_getElem l 0 h2]

theorem eval_zero_listSum (l : List (List Int)) :
    Polynomial.eval (0 : ZMod 2053) (l.map toPoly).sum
      = (l.map (fun p => toZ (p.headD 0))).sum := by
  induction l with
  | nil => simp
  | cons p ps ih =>
    rw [List.map_cons, List.sum_cons, Polynomial.eval_add, ih, eval_toPoly_zero,
      List.map_cons, List.sum_cons]

theorem wordPolynomialsOf_headD_sum (ids : List Int) (degree : Nat)
    (rand : Nat → Int) :
    ((wordPolynomialsOf ids degree rand).map (fun p => toZ (p.headD 0))).sum
      = toZ ids.sum := by
  unfold wordPolynomialsOf
  rw [List.map_map]
  rw [show ((fun p : List Int => toZ (p.headD 0))
        ∘ fun p : Nat × Int => randomPolynomial rand (p.1 * degree) p.2 degree)
      = fun q : Nat × Int => toZ q.2 from by
    funext q
    show toZ ((randomPolynomial rand (q.1 * degree) q.2 degree).headD 0) = toZ q.2
    rw [randomPolynomial_headD, toZ_fmod]]
  rw [show (fun q : Nat × Int => toZ q.2) = toZ ∘ Prod.snd from rfl, ← List.map_map,
    List.enum_map_snd, toZ_listSum]

/-- When the recovered words, row checksums and global checksum all agree with
the Path-A recomputation, every word is in the BIP39 range, and the mnemonic
BIP39-validates, the report tail of `recoverMnemonic` yields a clean success. -/
theorem finishReport_clean (bipValid : List Int → Bool) (ids checks : List Int)
    (g : Int) (rc : Nat)
    (hch : ∀ r, r < rc → checks.getD r 0 = (computeRowChecks ids).getD r 0)
    (hg : g = computeGlobalChecksum ids)
    (hrange : ∀ id ∈ ids, 0 ≤ id ∧ id < 2048)
    (hbip : bipValid ids = true) :
    finishReport bipValid true ids checks g rc
      = ⟨some ids, ⟨[], false, false, none⟩, true⟩ := by
  have hrow : (List.range rc).filter (fun row =>
      ! constantTimeEqual (checks.getD row 0) ((computeRowChecks ids).getD row 0)) = [] :=
    List.filter_eq_nil_iff.mpr (by
      intro r hr
      rw [hch r (List.mem_range.mp hr), constantTimeEqual_self]
      simp)
  have hglob : (! constantTimeEqual g (computeGlobalChecksum ids)) = false := by
    rw [hg, constantTimeEqual_self]
    rfl
  have hidx : List.findIdx? (fun value => decide (value < 0 ∨ 2048 ≤ value)) ids 0
      = none :=
    findIdx?_none_of_all ids 0 (by
      intro a ha
      have := hrange a ha
      simp only [decide_eq_false_iff_not, not_or, not_lt, not_le]
      omega)
  simp only [finishReport, hrow, hglob, hidx, hbip]
  simp

/-- **C1**: Round-trip — for every valid 12- or 24-word mnemonic (its word-index
sequence, every index in the BIP39 range `[0, 2047]`), every `2 ≤ k ≤ n < 2053`
(enforced by `splitMnemonic`'s own guards), and every `k`-element subset `S` of
the shares returned by `splitMnemonic`, `recoverMnemonic` on `S` returns a
result whose mnemonic equals the original and whose `success` flag is `true`. -/
theorem C1_round_trip (bipValid : List Int → Bool) (ids : List Int)
    (k n : Nat) (rand : Nat → Int) (shares S : List Share)
    (h : splitMnemonic bipValid ids k n rand = some shares)
    (hrange : ∀ id ∈ ids, 0 ≤ id ∧ id < 2048)
    (hsub : ∀ s ∈ S, s ∈ shares)
    (hnodup : S.Nodup)
    (hlen : S.length = k) :
    (recoverMnemonic bipValid true S ids.length).mnemonic = some ids
    ∧ (recoverMnemonic bipValid true S ids.length).success = true := by
  obtain ⟨hk2, hkn, hn, hbip, hwc, rps, gp, hrps, hgp, hslen, hmem⟩ :=
    split_shares_spec bipValid ids k n rand shares h
  set wps := wordPolynomialsOf ids (k - 1) rand with hwps
  have hW : WORDS_PER_ROW = 3 := rfl
  have hwpslen : wps.length = ids.length := by
    rw [hwps]
    exact wordPolynomialsOf_length ids (k - 1) rand
  have hwlen : ∀ p ∈ wps, p.length = k := by
    intro p hp
    rw [hwps] at hp
    unfold wordPolynomialsOf at hp
    obtain ⟨q, hq, hpe⟩ := List.mem_map.mp hp
    rw [← hpe, randomPolynomial_length]
    omega
  have hSne : S ≠ [] := by
    intro hS
    rw [hS] at hlen
    simp at hlen
    omega
  have hPs : ∀ s ∈ S, (1 ≤ s.shareNumber ∧ s.shareNumber ≤ (n : Int))
      ∧ s.wordShares = shareWordShares wps s.shareNumber
      ∧ s.checksumShares.length = ids.length / WORDS_PER_ROW
      ∧ (∀ r, r < ids.length / WORDS_PER_ROW → s.checksumShares.getD r 0
          = evaluatePolynomial (rps.getD r []) s.shareNumber)
      ∧ s.globalChecksumVerificationShare = evaluatePolynomial gp s.shareNumber := by
    intro s hs
    obtain ⟨j, hj, hb⟩ := hmem s (hsub s hs)
    obtain ⟨hnum, hws, hcl, hcv, hgv⟩ := buildShare_eq _ _ _ _ _ _ hb
    rw [← hnum] at hws hcv hgv
    refine ⟨⟨?_, ?_⟩, hws, hcl, hcv, hgv⟩
    · rw [hnum]; omega
    · rw [hnum]; omega
  have hx : ∀ s ∈ S, 1 ≤ s.shareNumber ∧ s.shareNumber ≤ 2052 := by
    intro s hs
    obtain ⟨⟨h1, h2⟩, _⟩ := hPs s hs
    exact ⟨h1, by omega⟩
  have hinj : ∀ s1 ∈ S, ∀ s2 ∈ S, s1.shareNumber = s2.shareNumber → s1 = s2 := by
    intro s1 hs1 s2 hs2 he
    obtain ⟨j1, hj1, hb1⟩ := hmem s1 (hsub s1 hs1)
    obtain ⟨j2, hj2, hb2⟩ := hmem s2 (hsub s2 hs2)
    have h1 := (buildShare_eq _ _ _ _ _ _ hb1).1
    have h2 := (buildShare_eq _ _ _ _ _ _ hb2).1
    have hj12 : j1 = j2 := by omega
    rw [hj12] at hb1
    rw [hb1] at hb2
    exact Option.some.inj hb2
  have hnd : (S.map Share.shareNumber).Nodup := hnodup.map_on hinj
  unfold computeRowCheckPolynomials at hrps
  obtain ⟨hrlen, hridx⟩ := mapMOpt_spec _ _ _ hrps 0 []
  have hrow : ∀ r, r < ids.length / WORDS_PER_ROW →
      (rps.getD r []).length = k
      ∧ toPoly (rps.getD r []) = toPoly (wps.getD (r * WORDS_PER_ROW) [])
          + toPoly (wps.getD (r * WORDS_PER_ROW + 1) [])
          + toPoly (wps.getD (r * WORDS_PER_ROW + 2) []) := by
    intro r hr
    have hr' : r < wps.length / WORDS_PER_ROW := by rw [hwpslen]; exact hr
    have hidx := hridx r (by rw [List.length_range]; exact hr')
    rw [getD_range _ r hr'] at hidx
    have hget : ∀ i, i < wps.length → (wps.getD i []).length = k := by
      intro i hi
      apply hwlen
      rw [List.getD_eq_getElem _ _ hi]
      exact List.getElem_mem _
    have hmemlen : ∀ q ∈ [wps.getD (r * WORDS_PER_ROW) [],
        wps.getD (r * WORDS_PER_ROW + 1) [], wps.getD (r * WORDS_PER_ROW + 2) []],
        q.length = k := by
      intro q hq
      simp only [List.mem_cons, List.not_mem_nil, or_false] at hq
      rcases hq with hq | hq | hq <;> subst hq
      · exact hget _ (by rw [hwpslen]; rw [hW] at hr ⊢; omega)
      · exact hget _ (by rw [hwpslen]; rw [hW] at hr ⊢; omega)
      · exact hget _ (by rw [hwpslen]; rw [hW] at hr ⊢; omega)
    obtain ⟨ssum, hs, hsl, hsp⟩ := sumPolynomials_spec
      [wps.getD (r * WORDS_PER_ROW) [], wps.getD (r * WORDS_PER_ROW + 1) [],
        wps.getD (r * WORDS_PER_ROW + 2) []] k (List.cons_ne_nil _ _) hmemlen
    rw [hidx] at hs
    injection hs with hs
    rw [hs]
    refine ⟨hsl, ?_⟩
    rw [hsp, List.map_cons, List.map_cons, List.map_cons, List.map_nil,
      List.sum_cons, List.sum_cons, List.sum_cons, List.sum_nil, add_zero,
      ← add_assoc]
  unfold computeGlobalCheckPolynomial at hgp
  obtain ⟨g0, hg0, hg0len, hg0poly⟩ := sumPolynomials_spec wps k
    (by
      intro hnil
      rw [hnil] at hwpslen
      simp at hwpslen
      rcases hwc with hwc | hwc <;> omega)
    hwlen
  rw [hgp] at hg0
  injection hg0 with hg0
  rw [← hg0] at hg0len hg0poly
  have hcheckval : ∀ r, r < ids.length / WORDS_PER_ROW →
      fmod ((rps.getD r []).headD 0) = (computeRowChecks ids).getD r 0 := by
    intro r hr
    obtain ⟨_, hpoly⟩ := hrow r hr
    rw [show (computeRowChecks ids).getD r 0
        = modAdd (modAdd (ids.getD (r * WORDS_PER_ROW) 0)
            (ids.getD (r * WORDS_PER_ROW + 1) 0))
          (ids.getD (r * WORDS_PER_ROW + 2) 0) from by
      unfold computeRowChecks
      exact map_range_getD _ _ r hr _]
    rw [modAdd_modAdd_eq]
    apply fmod_eq_of_toZ_eq
    rw [show toZ ((rps.getD r []).headD 0) = (toPoly (rps.getD r [])).eval 0 from
      (eval_toPoly_zero _).symm, hpoly, Polynomial.eval_add, Polynomial.eval_add,
      eval_toPoly_zero, eval_toPoly_zero, eval_toPoly_zero]
    have hr3 : r * 3 + 2 < ids.length := by
      have hrx := hr
      rw [hW] at hrx
      omega
    have hi0 : r * WORDS_PER_ROW < ids.length := by rw [hW]; omega
    have hi1 : r * WORDS_PER_ROW + 1 < ids.length := by rw [hW]; omega
    have hi2 : r * WORDS_PER_ROW + 2 < ids.length := by rw [hW]; omega
    rw [hwps, wordPolynomialsOf_getD _ _ _ _ hi0, wordPolynomialsOf_getD _ _ _ _ hi1,
      wordPolynomialsOf_getD _ _ _ _ hi2, randomPolynomial_headD,
      randomPolynomial_headD, randomPolynomial_headD, toZ_fmod, toZ_fmod, toZ_fmod]
    unfold toZ
    push_cast
    ring
  have hglobval : fmod (gp.headD 0) = computeGlobalChecksum ids := by
    have hcg : computeGlobalChecksum ids = fmod (0 + ids.sum) := by
      unfold computeGlobalChecksum
      rw [show ids.foldl (fun acc value => modAdd acc value) 0
          = ids.foldl (fun acc value => modAdd acc value) (fmod 0) from rfl,
        foldl_modAdd_fmod]
    rw [hcg]
    apply fmod_eq_of_toZ_eq
    rw [show toZ (gp.headD 0) = (toPoly gp).eval 0 from (eval_toPoly_zero _).symm,
      hg0poly, eval_zero_listSum, hwps, wordPolynomialsOf_headD_sum,
      show (0 : Int) + ids.sum = ids.sum from zero_add _]
  have hwords : mapME (fun i => recoverCoordinate
      (S.map (fun share => (share.shareNumber, share.wordShares.getD i 0)))
      (fun sn => "Word share #" ++ toString (i + 1)
        ++ " (share " ++ toString sn ++ ")"))
      (List.range ids.length) = .ok ids := by
    rw [show (Except.ok ids : Except String (List Int))
        = .ok ((List.range ids.length).map (fun i => ids.getD i 0)) from by
      rw [map_range_getD_self]]
    apply mapME_ok_map
    intro i hi
    rw [List.mem_range] at hi
    have hdeg : (wps.getD i []).length ≤ S.length := by
      rw [hlen]
      have hik : (wps.getD i []).length = k := by
        apply hwlen
        rw [List.getD_eq_getElem _ _ (by rw [hwpslen]; exact hi)]
        exact List.getElem_mem _
      omega
    have happ := recoverCoordinate_poly S hSne hx hnd (wps.getD i [])
      hdeg (fun s => s.wordShares.getD i 0)
      (by
        intro s hs
        obtain ⟨_, hws, _, _, _⟩ := hPs s hs
        show s.wordShares.getD i 0 = _
        rw [hws]
        unfold shareWordShares
        rw [getD_map _ _ _ (by rw [hwpslen]; exact hi) _ []])
      (fun sn => "Word share #" ++ toString (i + 1)
        ++ " (share " ++ toString sn ++ ")")
    rw [show fmod ((wps.getD i []).headD 0) = ids.getD i 0 from by
      rw [hwps, wordPolynomialsOf_getD _ _ _ _ hi, randomPolynomial_headD,
        fmod_eq_self (fmod_nonneg _) (fmod_lt _)]
      have hm : ids.getD i 0 ∈ ids := by
        rw [List.getD_eq_getElem _ _ hi]
        exact List.getElem_mem _
      exact fmod_eq_self (hrange _ hm).1 (by have := (hrange _ hm).2; omega)] at happ
    exact happ
  have hchecks : mapME (fun row => recoverCoordinate
      (S.map (fun share => (share.shareNumber, share.checksumShares.getD row 0)))
      (fun sn => "Checksum share C" ++ toString (row + 1)
        ++ " (share " ++ toString sn ++ ")"))
      (List.range (ids.length / WORDS_PER_ROW))
      = .ok ((List.range (ids.length / WORDS_PER_ROW)).map
          (fun r => fmod ((rps.getD r []).headD 0))) := by
    apply mapME_ok_map
    intro r hr
    rw [List.mem_range] at hr
    have hdeg : (rps.getD r []).length ≤ S.length := by
      rw [(hrow r hr).1, hlen]
    exact recoverCoordinate_poly S hSne hx hnd (rps.getD r []) hdeg
      (fun s => s.checksumShares.getD r 0)
      (by
        intro s hs
        obtain ⟨_, _, _, hcv, _⟩ := hPs s hs
        exact hcv r hr)
      _
  have hglobal : recoverCoordinate
      (S.map (fun share => (share.shareNumber, share.globalChecksumVerificationShare)))
      (fun sn => "Global Checksum verification (share " ++ toString sn ++ ")")
      = .ok (fmod (gp.headD 0)) := by
    have hdeg : gp.length ≤ S.length := by
      rw [hg0len, hlen]
    exact recoverCoordinate_poly S hSne hx hnd gp hdeg
      (fun s => s.globalChecksumVerificationShare)
      (by
        intro s hs
        exact (hPs s hs).2.2.2.2)
      _
  have hlen2 : ¬ S.length < 2 := by omega
  have hsup : ensureSupportedWordCount ids.length = .ok () := by
    unfold ensureSupportedWordCount
    rw [if_neg (by tauto)]
  have hmod : ¬ (ids.length % WORDS_PER_ROW ≠ 0) := by
    rw [hW]
    rcases hwc with hwc | hwc <;> simp [hwc]
  have hval : validateSharesForRecovery Share.shareNumber Share.wordShares
      Share.checksumShares S ids.length = .ok () := by
    unfold validateSharesForRecovery
    rw [mapME_ok_map _ (fun _ => ()) S.enum (by
      intro p hp
      have hpS : p.2 ∈ S := by
        have h2 : p.2 ∈ S.enum.map Prod.snd := List.mem_map_of_mem Prod.snd hp
        rwa [List.enum_map_snd] at h2
      obtain ⟨⟨ha, hb⟩, hws, hcl, _, _⟩ := hPs p.2 hpS
      rw [if_neg (by omega), if_neg (by
          rw [hws]
          unfold shareWordShares
          simp [hwpslen]),
        if_neg (by simp [hcl])])]
    rfl
  have hdist : ensureShareNumbersDistinct Share.shareNumber S = .ok () := by
    unfold ensureShareNumbersDistinct
    rw [if_pos hnd]
  have hcore : recoverCore bipValid true S ids.length
      = .ok (finishReport bipValid true ids
          ((List.range (ids.length / WORDS_PER_ROW)).map
            (fun r => fmod ((rps.getD r []).headD 0)))
          (fmod (gp.headD 0)) (ids.length / WORDS_PER_ROW)) := by
    simp only [recoverCore, if_neg hlen2, hsup, if_neg hmod, hval, hdist,
      hwords, hchecks, hglobal]
  have hfin := finishReport_clean bipValid ids
      ((List.range (ids.length / WORDS_PER_ROW)).map
        (fun r => fmod ((rps.getD r []).headD 0)))
      (fmod (gp.headD 0)) (ids.length / WORDS_PER_ROW)
      (by
        intro r hr
        rw [map_range_getD _ _ r hr]
        exact hcheckval r hr)
      hglobval hrange hbip
  have hfinal : recoverMnemonic bipValid true S ids.length
      = ⟨some ids, ⟨[], false, false, none⟩, true⟩ := by
    unfold recoverMnemonic
    rw [hcore, hfin]
  rw [hfinal]
  exact ⟨rfl, rfl⟩

/-- Witness for C1: the 12-word mnemonic with word indices
`[0,…,0,3]` split with `k = 2`, `n = 3` under the random stream
`i ↦ i + 5`, recovered from the 2-element subset `{share 1, share 2}`. -/
theorem C1_witness :
    splitMnemonic (fun l => l == [0, 0, 0, 0, 0, 0, 0, 0, 0, 0, 0, 3])
        [0, 0, 0, 0, 0, 0, 0, 0, 0, 0, 0, 3] 2 3 (fun i => (i : Int) + 5)
      = some
        [⟨1, [5, 6, 7, 8, 9, 10, 11, 12, 13, 14, 15, 19], [18, 27, 36, 48], 129⟩,
         ⟨2, [10, 12, 14, 16, 18, 20, 22, 24, 26, 28, 30, 35], [36, 54, 72, 93], 255⟩,
         ⟨3, [15, 18, 21, 24, 27, 30, 33, 36, 39, 42, 45, 51], [54, 81, 108, 138], 381⟩]
    ∧ ((recoverMnemonic (fun l => l == [0, 0, 0, 0, 0, 0, 0, 0, 0, 0, 0, 3]) true
          [⟨1, [5, 6, 7, 8, 9, 10, 11, 12, 13, 14, 15, 19], [18, 27, 36, 48], 129⟩,
           ⟨2, [10, 12, 14, 16, 18, 20, 22, 24, 26, 28, 30, 35], [36, 54, 72, 93], 255⟩]
          12).mnemonic = some [0, 0, 0, 0, 0, 0, 0, 0, 0, 0, 0, 3]
      ∧ (recoverMnemonic (fun l => l == [0, 0, 0, 0, 0, 0, 0, 0, 0, 0, 0, 3]) true
          [⟨1, [5, 6, 7, 8, 9, 10, 11, 12, 13, 14, 15, 19], [18, 27, 36, 48], 129⟩,
           ⟨2, [10, 12, 14, 16, 18, 20, 22, 24, 26, 28, 30, 35], [36, 54, 72, 93], 255⟩]
          12).success = true) :=
  ⟨by decide,
   C1_round_trip (fun l => l == [0, 0, 0, 0, 0, 0, 0, 0, 0, 0, 0, 3])
     [0, 0, 0, 0, 0, 0, 0, 0, 0, 0, 0, 3] 2 3 (fun i => (i : Int) + 5)
     [⟨1, [5, 6, 7, 8, 9, 10, 11, 12, 13, 14, 15, 19], [18, 27, 36, 48], 129⟩,
      ⟨2, [10, 12, 14, 16, 18, 20, 22, 24, 26, 28, 30, 35], [36, 54, 72, 93], 255⟩,
      ⟨3, [15, 18, 21, 24, 27, 30, 33, 36, 39, 42, 45, 51], [54, 81, 108, 138], 381⟩]
     [⟨1, [5, 6, 7, 8, 9, 10, 11, 12, 13, 14, 15, 19], [18, 27, 36, 48], 129⟩,
      ⟨2, [10, 12, 14, 16, 18, 20, 22, 24, 26, 28, 30, 35], [36, 54, 72, 93], 255⟩]
     (by decide) (by decide) (by decide) (by decide) (by decide)⟩

/-! ## Native BIP39 generation and validation (`src/bip39/generate.ts`,
`src/bip39/validation.ts`) -/

/-- The big-endian `w`-bit binary string of `v`, as built by the sources'
`v.toString(2).padStart(w, '0')` for `v < 2 ^ w`; a JS `'0'`/`'1'` string is
embedded as a `List Bool`. -/
def natToBits : Nat → Nat → List Bool
  | 0, _ => []
  | w + 1, v => natToBits w (v / 2) ++ [decide (v % 2 = 1)]

/-- `parseInt(chunk, 2)` on a binary string embedded as `List Bool`. -/
def bitsToNat (bits : List Bool) : Nat :=
  bits.foldl (fun acc b => 2 * acc + (if b then 1 else 0)) 0

/-- `wordToBip39Id` from `src/bip39/lookup.ts` in the word-index embedding:
words are represented by their 1-based BIP39 IDs, so the word-to-ID map the
module builds over the 2048-entry wordlist collapses to the identity on
`[1, 2048]`, and an unknown word throws (`none`). -/
def wordToBip39Id (word : Nat) : Option Nat :=
  if 1 ≤ word ∧ word ≤ 2048 then some word else none

/-- Modelled from the spec: `constantTimeStringEqual` of `src/utils/security.ts`
(the file is not under `src/`): a constant-time comparison of two equal-purpose
strings that returns whether they are equal. -/
def constantTimeStringEqual (a b : List Bool) : Bool := a == b

/-- `generateBip39Mnemonic` from `src/bip39/generate.ts` in the word-index
embedding: the generated mnemonic is the list of its 1-based BIP39 word IDs
(`bip39IdToWord` of `lookup.ts` is the identity there). The external
`@noble/hashes` dependencies are parameters: `randByte i` is the `i`-th byte
drawn by `randomBytes`, and `sha e` is `sha256(e)[0]`, the first byte of the
SHA-256 digest of the byte list `e`. `none` models the thrown word-count
error. -/
def generateBip39Mnemonic (sha : List Nat → Nat) (randByte : Nat → Nat)
    (wordCount : Nat) : Option (List Nat) :=
  if ¬ (wordCount = 12 ∨ wordCount = 15 ∨ wordCount = 18 ∨ wordCount = 21
      ∨ wordCount = 24) then none
  else
    let checksumBits := wordCount / 3
    let entropyBits := wordCount * 11 - checksumBits
    let entropyBytes := entropyBits / 8
    let entropy := (List.range entropyBytes).map randByte
    let checksumBitsStr := (natToBits 8 (sha entropy)).take checksumBits
    let entropyBitsStr := (entropy.map (natToBits 8)).flatten
    let allBits := entropyBitsStr ++ checksumBitsStr
    some ((List.range wordCount).map (fun i =>
      bitsToNat ((allBits.drop (i * 11)).take 11) + 1))

/-- `validateBip39Mnemonic` from `src/bip39/validation.ts` in the word-index
embedding: the mnemonic argument is the list of 1-based word IDs produced by
the sanitising split, a `wordToBip39Id` lookup miss is the `try`/`catch`'s
`false` branch, and `sha` is the external SHA-256 first digest byte, as in
`generateBip39Mnemonic`. -/
def validateBip39Mnemonic (sha : List Nat → Nat) (ids : List Nat) : Bool :=
  if ¬ (ids.length = 12 ∨ ids.length = 15 ∨ ids.length = 18 ∨ ids.length = 21
      ∨ ids.length = 24) then false
  else
    match mapMOpt (fun word => (wordToBip39Id word).map (fun id => id - 1)) ids with
    | none => false
    | some bip39Indices =>
      let checksumBits := ids.length / 3
      let entropyBits := ids.length * 11 - checksumBits
      let binaryString := (bip39Indices.map (natToBits 11)).flatten
      let entropyBitsStr := binaryString.take entropyBits
      let checksumBitsStr := binaryString.drop entropyBits
      let entropyBytes := (List.range (entropyBits / 8)).map (fun i =>
        bitsToNat ((entropyBitsStr.drop (i * 8)).take 8))
      let expectedChecksum := (natToBits 8 (sha entropyBytes)).take checksumBits
      constantTimeStringEqual expectedChecksum checksumBitsStr

theorem natToBits_length (w v : Nat) : (natToBits w v).length = w := by
  induction w generalizing v with
  | zero => rfl
  | succ w ih =>
    rw [natToBits, List.length_append, ih, List.length_singleton]

theorem bitsToNat_append_singleton (ys : List Bool) (b : Bool) :
    bitsToNat (ys ++ [b]) = 2 * bitsToNat ys + (if b then 1 else 0) := by
  unfold bitsToNat
  rw [List.foldl_append, List.foldl_cons, List.foldl_nil]

theorem bitsToNat_lt (bits : List Bool) : bitsToNat bits < 2 ^ bits.length := by
  induction bits using List.reverseRecOn with
  | nil => decide
  | append_singleton ys b ih =>
    rw [bitsToNat_append_singleton, List.length_append, List.length_singleton,
      pow_succ]
    cases b <;> simp <;> omega

theorem natToBits_bitsToNat (bits : List Bool) :
    natToBits bits.length (bitsToNat bits) = bits := by
  induction bits using List.reverseRecOn with
  | nil => rfl
  | append_singleton ys b ih =>
    rw [List.length_append, List.length_singleton, natToBits]
    cases b
    · have hx : bitsToNat (ys ++ [false]) = 2 * bitsToNat ys := by
        rw [bitsToNat_append_singleton]
        simp
      rw [hx, show 2 * bitsToNat ys / 2 = bitsToNat ys from by omega, ih]
      congr 1
      rw [show 2 * bitsToNat ys % 2 = 0 from by omega]
      rfl
    · have hx : bitsToNat (ys ++ [true]) = 2 * bitsToNat ys + 1 := by
        rw [bitsToNat_append_singleton]
        simp
      rw [hx, show (2 * bitsToNat ys + 1) / 2 = bitsToNat ys from by omega, ih]
      congr 1
      rw [show (2 * bitsToNat ys + 1) % 2 = 1 from by omega]
      rfl

theorem bitsToNat_natToBits (w : Nat) : ∀ v, v < 2 ^ w →
    bitsToNat (natToBits w v) = v := by
  induction w with
  | zero =>
    intro v hv
    rw [pow_zero] at hv
    have hv0 : v = 0 := by omega
    subst hv0
    rfl
  | succ w ih =>
    intro v hv
    rw [natToBits, bitsToNat_append_singleton,
      ih (v / 2) (by rw [pow_succ] at hv; omega)]
    by_cases hv2 : v % 2 = 1
    · simp [hv2]
      omega
    · have hv0 : v % 2 = 0 := by omega
      simp [hv0]
      omega

theorem length_flatten_const {α : Type} (L : List (List α)) (w : Nat)
    (h : ∀ x ∈ L, x.length = w) : L.flatten.length = w * L.length := by
  induction L with
  | nil => simp
  | cons x xs ih =>
    rw [List.flatten_cons, List.length_append, h x (List.mem_cons_self x xs),
      ih (fun y hy => h y (List.mem_cons_of_mem x hy)), List.length_cons]
    ring

theorem flatten_chunk {α : Type} (L : List (List α)) (w : Nat)
    (h : ∀ x ∈ L, x.length = w) :
    ∀ i, (L.flatten.drop (i * w)).take w = L.getD i [] := by
  induction L with
  | nil =>
    intro i
    simp
  | cons x xs ih =>
    intro i
    cases i with
    | zero =>
      rw [Nat.zero_mul, List.drop_zero, List.flatten_cons,
        List.take_left' (h x (List.mem_cons_self x xs)), List.getD_cons_zero]
    | succ i =>
      rw [List.flatten_cons, List.getD_cons_succ, Nat.succ_mul,
        show (x ++ xs.flatten).drop (i * w + w) = xs.flatten.drop (i * w) from by
          rw [Nat.add_comm, ← List.drop_drop,
            List.drop_left' (h x (List.mem_cons_self x xs))]]
      exact ih (fun y hy => h y (List.mem_cons_of_mem x hy)) i

theorem chunk_flatten {α : Type} (w : Nat) :
    ∀ (n : Nat) (L : List α), L.length = n * w →
    ((List.range n).map (fun i => (L.drop (i * w)).take w)).flatten = L := by
  intro n
  induction n with
  | zero =>
    intro L hL
    rw [List.range_zero, List.map_nil,
      show L = [] from List.length_eq_zero.mp (by rw [hL, Nat.zero_mul])]
    rfl
  | succ n ih =>
    intro L hL
    rw [List.range_succ_eq_map, List.map_cons, List.flatten_cons, List.map_map,
      show ((fun i => (L.drop (i * w)).take w) ∘ Nat.succ)
          = fun i => ((L.drop w).drop (i * w)).take w from by
        funext i
        show (L.drop ((i + 1) * w)).take w = ((L.drop w).drop (i * w)).take w
        rw [List.drop_drop, Nat.succ_mul, Nat.add_comm (i * w) w],
      ih (L.drop w) (by rw [List.length_drop, hL, Nat.succ_mul]; omega),
      Nat.zero_mul, List.drop_zero, List.take_append_drop]

theorem map_range_getD_self_nat (l : List Nat) :
    (List.range l.length).map (fun i => l.getD i 0) = l := by
  apply List.ext_getElem (by simp)
  intro i h1 h2
  rw [List.getElem_map, List.getElem_range, List.getD_eq_getElem l 0 h2]

/-- **C10**: Generate/validate round-trip — for every supported word count in
`{12, 15, 18, 21, 24}` and every byte stream the random source can draw, the
mnemonic returned by `generateBip39Mnemonic` passes `validateBip39Mnemonic`
(with the same SHA-256 oracle): the native generator always emits a
checksum-valid mnemonic. -/
theorem C10_generate_validate (sha : List Nat → Nat) (randByte : Nat → Nat)
    (hrand : ∀ i, randByte i < 256)
    (wordCount : Nat) (m : List Nat)
    (h : generateBip39Mnemonic sha randByte wordCount = some m) :
    validateBip39Mnemonic sha m = true := by
  simp only [generateBip39Mnemonic] at h
  split at h
  · exact Option.noConfusion h
  rename_i hwc
  replace hwc := not_not.mp hwc
  injection h with h
  subst h
  set eb := wordCount * 11 - wordCount / 3 with heb
  set entropy := (List.range (eb / 8)).map randByte with hent
  set cstr := (natToBits 8 (sha entropy)).take (wordCount / 3) with hcstr
  set allBits := (entropy.map (natToBits 8)).flatten ++ cstr with hallB
  have h8 : 8 * (eb / 8) = eb := by
    rw [heb]
    rcases hwc with hwc | hwc | hwc | hwc | hwc <;> subst hwc <;> decide
  have hcb8 : wordCount / 3 ≤ 8 := by
    rcases hwc with hwc | hwc | hwc | hwc | hwc <;> subst hwc <;> decide
  have hsum : eb + wordCount / 3 = wordCount * 11 := by
    rw [heb]
    rcases hwc with hwc | hwc | hwc | hwc | hwc <;> subst hwc <;> decide
  have hentlen : entropy.length = eb / 8 := by
    rw [hent, List.length_map, List.length_range]
  have hjlen : (entropy.map (natToBits 8)).flatten.length = eb := by
    rw [length_flatten_const _ 8 (by
        intro x hx
        obtain ⟨v, hv, hxe⟩ := List.mem_map.mp hx
        rw [← hxe, natToBits_length]),
      List.length_map, hentlen, h8]
  have hclen : cstr.length = wordCount / 3 := by
    rw [hcstr, List.length_take, natToBits_length]
    omega
  have halen : allBits.length = wordCount * 11 := by
    rw [hallB, List.length_append, hjlen, hclen, hsum]
  have hchunk : ∀ i, i < wordCount → ((allBits.drop (i * 11)).take 11).length = 11 := by
    intro i hi
    rw [List.length_take, List.length_drop, halen]
    omega
  have hid : ∀ i, i < wordCount →
      1 ≤ bitsToNat ((allBits.drop (i * 11)).take 11) + 1
      ∧ bitsToNat ((allBits.drop (i * 11)).take 11) + 1 ≤ 2048 := by
    intro i hi
    have hlt := bitsToNat_lt ((allBits.drop (i * 11)).take 11)
    rw [hchunk i hi] at hlt
    have h11 : (2 : Nat) ^ 11 = 2048 := by norm_num
    exact ⟨by omega, by omega⟩
  have hmlen : ((List.range wordCount).map (fun i =>
      bitsToNat ((allBits.drop (i * 11)).take 11) + 1)).length = wordCount := by
    rw [List.length_map, List.length_range]
  have hmap : mapMOpt (fun word => (wordToBip39Id word).map (fun id => id - 1))
      ((List.range wordCount).map (fun i =>
        bitsToNat ((allBits.drop (i * 11)).take 11) + 1))
      = some (((List.range wordCount).map (fun i =>
          bitsToNat ((allBits.drop (i * 11)).take 11) + 1)).map
            (fun word => word - 1)) :=
    mapMOpt_ok_map _ _ _ (by
      intro w hw
      obtain ⟨i, hi, hwi⟩ := List.mem_map.mp hw
      rw [List.mem_range] at hi
      have hb := hid i hi
      rw [← hwi]
      unfold wordToBip39Id
      rw [if_pos hb]
      rfl)
  have hIdx : ((((List.range wordCount).map (fun i =>
        bitsToNat ((allBits.drop (i * 11)).take 11) + 1)).map
          (fun word => word - 1)).map (natToBits 11))
      = (List.range wordCount).map (fun i => (allBits.drop (i * 11)).take 11) := by
    rw [List.map_map, List.map_map]
    apply List.map_congr_left
    intro i hi
    rw [List.mem_range] at hi
    show natToBits 11 (bitsToNat ((allBits.drop (i * 11)).take 11) + 1 - 1)
      = (allBits.drop (i * 11)).take 11
    rw [Nat.add_sub_cancel]
    have hnb := natToBits_bitsToNat ((allBits.drop (i * 11)).take 11)
    rw [hchunk i hi] at hnb
    exact hnb
  have hbin : ((List.range wordCount).map
      (fun i => (allBits.drop (i * 11)).take 11)).flatten = allBits :=
    chunk_flatten 11 wordCount allBits halen
  have htake : allBits.take eb = (entropy.map (natToBits 8)).flatten := by
    rw [hallB, List.take_left' hjlen]
  have hdrop : allBits.drop eb = cstr := by
    rw [hallB, List.drop_left' hjlen]
  have hbytes : (List.range (eb / 8)).map (fun i =>
      bitsToNat (((entropy.map (natToBits 8)).flatten.drop (i * 8)).take 8))
      = entropy := by
    have hflat8 : ∀ x ∈ entropy.map (natToBits 8), x.length = 8 := by
      intro x hx
      obtain ⟨v, hv, hxe⟩ := List.mem_map.mp hx
      rw [← hxe, natToBits_length]
    have h1 : ∀ i, i < eb / 8 →
        bitsToNat (((entropy.map (natToBits 8)).flatten.drop (i * 8)).take 8)
        = entropy.getD i 0 := by
      intro i hi
      rw [flatten_chunk _ 8 hflat8 i,
        getD_map _ _ _ (by rw [hentlen]; exact hi) _ 0]
      apply bitsToNat_natToBits
      rw [hent, map_range_getD _ _ i hi 0]
      exact lt_of_lt_of_le (hrand i) (by norm_num)
    calc (List.range (eb / 8)).map (fun i =>
          bitsToNat (((entropy.map (natToBits 8)).flatten.drop (i * 8)).take 8))
        = (List.range (eb / 8)).map (fun i => entropy.getD i 0) :=
          List.map_congr_left (fun i hi => h1 i (List.mem_range.mp hi))
      _ = entropy := by
          rw [← hentlen]
          exact map_range_getD_self_nat entropy
  simp only [validateBip39Mnemonic, hmlen]
  rw [if_neg (not_not_intro hwc)]
  simp only [hmap]
  rw [← heb, hIdx, hbin, htake, hdrop, hbytes, ← hcstr]
  unfold constantTimeStringEqual
  simp

/-- Witness for C10: word count 12 with the all-zero byte source and the
zero SHA-256 oracle generates the mnemonic whose word IDs are all 1, and it
validates. -/
theorem C10_witness :
    generateBip39Mnemonic (fun _ => 0) (fun _ => 0) 12
      = some [1, 1, 1, 1, 1, 1, 1, 1, 1, 1, 1, 1]
    ∧ validateBip39Mnemonic (fun _ => 0) [1, 1, 1, 1, 1, 1, 1, 1, 1, 1, 1, 1]
      = true :=
  ⟨by decide,
   C10_generate_validate (fun _ => 0) (fun _ => 0)
     (fun _ => by show (0 : Nat) < 256; decide) 12
     [1, 1, 1, 1, 1, 1, 1, 1, 1, 1, 1, 1] (by decide)⟩

end Schiavinato
